import Mathlib

/-!
Verification of the Testsight static test-impact engine.

The development shallowly embeds the core of the engine:
`resolve_import_module` and `analyze_module` from `indexer.py`, the map
augmentation pass of `build_module_data`, the token fallback
matcher of `resolver.py` (`TokenCollector._split_token`, `path_tokens`,
`directory_tokens`), and the breadth-first impact resolver
(`ImpactResolver.resolve`).  Python dictionaries become association
lists, Python sets become `Finset`s or lists with membership semantics,
the `None` whole-module sentinel becomes `Option.none`, file paths
become lists of components, and the unbounded `while queue` loop becomes
a fuel-indexed loop together with a proof that an explicitly computed
fuel always suffices.
-/

namespace Testsight

/-- The symbol key used in import maps: `none` is the whole-module
sentinel, `some s` a concrete symbol name. -/
abbrev Sym := Option String

/-- A file path, as its list of components. -/
abbrev PyPath := List String

/-- Embedding of `indexer.ModuleInfo`: qualified name, path, package components and
package flag of one indexed module. -/
structure MInfo where
  name : String
  path : PyPath
  packageParts : List String
  isPackage : Bool
deriving DecidableEq, Repr

/-- Embedding of `indexer.ModuleData`: exported names and the import map
(target module name, then set of symbols-or-sentinel). -/
structure MData where
  exports : List String
  imports : List (String × List Sym)
deriving DecidableEq, Repr

/-- Split a character list at every occurrence of `c`, keeping empty
segments, as Python's `str.split` with a single-character separator. -/
def splitCh (c : Char) : List Char → List (List Char)
  | [] => [[]]
  | x :: xs =>
    let r := splitCh c xs
    if x = c then [] :: r else (x :: r.headD []) :: r.tail

/-- Python `s.split(sep)` for a one-character separator. -/
def splitStr (sep : Char) (s : String) : List String :=
  (splitCh sep s.toList).map (fun l => String.mk l)

/-- Python `".".join(parts)`. -/
def joinDots (parts : List String) : String :=
  String.intercalate "." parts

/-- The base-parts computation of `indexer.resolve_import_module` for a
nonzero level: the importer's own package (its dotted name, minus the
leaf component unless the importer is a package entry point), with
`level - 1` further trailing components removed when `level > 1`. -/
def rimBase (info : MInfo) (level : Nat) : List String :=
  let baseParts :=
    if info.isPackage then splitStr '.' info.name
    else (splitStr '.' info.name).dropLast
  if level > 1 then
    let drop := min baseParts.length (level - 1)
    if drop ≠ 0 then baseParts.take (baseParts.length - drop) else baseParts
  else baseParts

/-- Continuation of `resolveImportModule` after `rimBase`: append the
target module's segments (when the target is truthy) and join. -/
def rimJoin (baseParts : List String) (module : Option String) : Option String :=
  let allParts :=
    match module with
    | some m => if m ≠ "" then baseParts ++ splitStr '.' m else baseParts
    | none => baseParts
  some (joinDots (allParts.filter (fun part => part ≠ "")))

/-- Embedding of `indexer.resolve_import_module`: resolve the target of
a (possibly relative) import performed by module `info`.  A level of `0`
returns the target unchanged; otherwise the importer's own package is
taken, `level - 1` further trailing components are removed when
`level > 1`, and the target's own segments are appended. -/
def resolveImportModule (info : MInfo) (module : Option String) (level : Nat) :
    Option String :=
  if level = 0 then module
  else rimJoin (rimBase info level) module

/-- The importing module's own package, in components: its dotted name
minus the trailing leaf component, or the full dotted name when the
module is a package entry point. -/
def ownPackage (info : MInfo) : List String :=
  if info.isPackage then splitStr '.' info.name
  else (splitStr '.' info.name).dropLast

/-- An `ast.alias` node: imported name with optional `as` rename. -/
structure Alias where
  name : String
  asname : Option String
deriving DecidableEq, Repr

/-- An assignment target: either an `ast.Name` or anything else
(tuple, attribute, subscript, ...). -/
inductive Target where
  | name (id : String)
  | otherTarget
deriving DecidableEq, Repr

mutual
/-- The statement fragment of the Python AST that `analyze_module`
inspects.  `compound` stands for any other statement carrying a nested
statement body (`if`, `while`, `for`, `with`, `try`); `simple` for any
remaining statement. -/
inductive Stmt where
  | classDef (nm : String) (body : Block)
  | functionDef (nm : String) (body : Block)
  | asyncFunctionDef (nm : String) (body : Block)
  | assign (targets : List Target)
  | importStmt (names : List Alias)
  | importFrom (module : Option String) (names : List Alias) (level : Nat)
  | compound (body : Block)
  | simple
deriving DecidableEq, Repr

/-- A statement list (a module body or a nested body). -/
inductive Block where
  | nil
  | cons (s : Stmt) (rest : Block)
deriving DecidableEq, Repr
end

mutual
/-- All statement nodes of a statement, itself included: the statement
fragment of `ast.walk`. -/
def walkStmt : Stmt → List Stmt
  | .classDef nm b => .classDef nm b :: walkBlock b
  | .functionDef nm b => .functionDef nm b :: walkBlock b
  | .asyncFunctionDef nm b => .asyncFunctionDef nm b :: walkBlock b
  | .assign tgts => [.assign tgts]
  | .importStmt names => [.importStmt names]
  | .importFrom m names lvl => [.importFrom m names lvl]
  | .compound b => .compound b :: walkBlock b
  | .simple => [.simple]

/-- All statement nodes of a block, in order. -/
def walkBlock : Block → List Stmt
  | .nil => []
  | .cons s rest => walkStmt s ++ walkBlock rest
end

/-- The name bound by a plain `import` alias:
`alias.asname or alias.name.split(".")[0]` (Python `or`, so an empty
`asname` also falls back to the first component of the name). -/
def plainBinding (a : Alias) : String :=
  match a.asname with
  | some s => if s = "" then ((splitStr '.' a.name).headD "") else s
  | none => (splitStr '.' a.name).headD ""

/-- The name bound by a `from ... import` alias:
`alias.asname or alias.name`. -/
def fromBinding (a : Alias) : String :=
  match a.asname with
  | some s => if s = "" then a.name else s
  | none => a.name

/-- Embedding of `add_import` inside `analyze_module`: record `sym` for
`targetModule`, skipping falsy (absent or empty) targets.  The import
map is an association list; the symbol list has set semantics. -/
def addImport (imps : List (String × List Sym)) (targetModule : Option String)
    (sym : Sym) : List (String × List Sym) :=
  match targetModule with
  | none => imps
  | some t =>
    if t = "" then imps
    else if (imps.map Prod.fst).contains t then
      imps.map (fun e =>
        if e.1 = t then (e.1, if sym ∈ e.2 then e.2 else e.2 ++ [sym]) else e)
    else imps ++ [(t, [sym])]

/-- The export names a single statement node contributes when
`analyze_module` dispatches on it. -/
def exportsOf (info : MInfo) : Stmt → List String
  | .classDef nm _ => [nm]
  | .functionDef nm _ => [nm]
  | .asyncFunctionDef nm _ => [nm]
  | .assign tgts => tgts.filterMap (fun t =>
      match t with
      | .name id => some id
      | .otherTarget => none)
  | .importStmt names => names.filterMap (fun a =>
      let binding := plainBinding a
      if binding = "" then none else some binding)
  | .importFrom m names lvl =>
    (match resolveImportModule info m lvl with
     | none => []
     | some t =>
       if t = "" then []
       else names.filterMap (fun a =>
         if a.name = "*" then none else some (fromBinding a)))
  | .compound _ => []
  | .simple => []

/-- The import-map update a single statement node contributes when
`analyze_module` dispatches on it. -/
def importsOf (info : MInfo) (imps : List (String × List Sym)) :
    Stmt → List (String × List Sym)
  | .importStmt names =>
    names.foldl (fun acc a => addImport acc (some a.name) none) imps
  | .importFrom m names lvl =>
    (match resolveImportModule info m lvl with
     | none => imps
     | some t =>
       if t = "" then imps
       else names.foldl (fun acc a =>
         if a.name = "*" then addImport acc (some t) none
         else addImport acc (some t) (some (fromBinding a))) imps)
  | _ => imps

/-- One dispatch step of `analyze_module`'s `for node in ast.walk`
loop, applied to the accumulated exports and import map. -/
def stepStmt (info : MInfo) (acc : List String × List (String × List Sym))
    (s : Stmt) : List String × List (String × List Sym) :=
  (acc.1 ++ exportsOf info s, importsOf info acc.2 s)

/-- The body of `analyze_module` applied to a successfully parsed tree: fold the
dispatch over every walked statement node. -/
def analyzeTree (info : MInfo) (tree : Block) : MData :=
  let acc := (walkBlock tree).foldl (stepStmt info) ([], [])
  ⟨acc.1, acc.2⟩

/-- Outcome of reading and parsing a module's file: the three failure
modes absorbed by `safe_parse`, or a parsed tree. -/
inductive SourceOutcome where
  | unreadable
  | undecodable
  | syntaxErr
  | parsed (tree : Block)
deriving DecidableEq, Repr

/-- Embedding of `indexer.safe_parse`: unreadable, undecodable or unparsable content
yields no tree. -/
def safeParse : SourceOutcome → Option Block
  | .unreadable => none
  | .undecodable => none
  | .syntaxErr => none
  | .parsed t => some t

/-- Embedding of `indexer.analyze_module`: parse the module's content and fold the
dispatch over every walked node; a failed parse yields the empty
`ModuleData`. -/
def analyzeModule (info : MInfo) (src : SourceOutcome) : MData :=
  match safeParse src with
  | none => ⟨[], []⟩
  | some tree => analyzeTree info tree

/-- The statements of a block, as a list, without descending into
nested bodies. -/
def blockToList : Block → List Stmt
  | .nil => []
  | .cons s rest => s :: blockToList rest

/-- Modelled from the specification's wording for the export set: only
names bound by nodes at the module's top level (not inside any nested
body) are exported. -/
def topLevelExports (info : MInfo) (tree : Block) : List String :=
  (blockToList tree).flatMap (exportsOf info)

/-- Addition of the whole-module sentinel to a symbol set
(`set.add(None)` on a list with set semantics). -/
def addNoneSym (l : List Sym) : List Sym :=
  if none ∈ l then l else l ++ [none]

/-- Embedding of `imports_mutable.setdefault(key, set()).add(None)` inside
`build_module_data`: ensure an entry for `key` and add the
whole-module sentinel to it. -/
def addSentinelKey (imps : List (String × List Sym)) (key : String) :
    List (String × List Sym) :=
  if (imps.map Prod.fst).contains key then
    imps.map (fun e => if e.1 = key then (e.1, addNoneSym e.2) else e)
  else imps ++ [(key, [none])]

/-- One symbol of one snapshot entry of the augmentation pass: when the
symbol is concrete and the dotted concatenation with the target module
names an indexed module, add the whole-module sentinel under the
concatenated name. -/
def augmentStep (idxNames : List String) (t : String)
    (acc2 : List (String × List Sym)) (s : Sym) : List (String × List Sym) :=
  match s with
  | none => acc2
  | some y =>
    let candidate := t ++ "." ++ y
    if idxNames.contains candidate then addSentinelKey acc2 candidate
    else acc2

/-- One snapshot entry of the augmentation pass of `build_module_data`:
process every recorded symbol of the entry. -/
def augmentOne (idxNames : List String) (acc : List (String × List Sym))
    (entry : String × List Sym) : List (String × List Sym) :=
  entry.2.foldl (augmentStep idxNames entry.1) acc

/-- The augmentation pass of `build_module_data`: iterate over a
snapshot of the import map's entries, mutating the map itself. -/
def augmentImports (idxNames : List String) (imps : List (String × List Sym)) :
    List (String × List Sym) :=
  imps.foldl (augmentOne idxNames) imps

/-- Look an import map up, with the empty set as default, as the
resolver's `dep_data.imports.get(module, frozenset())`. -/
def importsGetD (imps : List (String × List Sym)) (m : String) : List Sym :=
  (List.lookup m imps).getD []

/-- Embedding of `config.TokenConfig`: token-extraction settings. -/
structure TokenCfg where
  minimumLength : Int
  fallbackScore : Int
  stopwords : List String
deriving DecidableEq, Repr

/-- Lower-case every character (ASCII model of `str.lower`). -/
def lowerChars (l : List Char) : List Char :=
  l.map Char.toLower

/-- Python `raw[a:b]` for `a ≤ b`. -/
def sliceChars (l : List Char) (a b : Nat) : List Char :=
  (l.take b).drop a

/-- Python `s.replace("-", "_")`. -/
def hyphensToUnderscores (s : String) : String :=
  String.mk (s.toList.map (fun c => if c = '-' then '_' else c))

/-- Python `s.lower()` (ASCII model). -/
def lowerStr (s : String) : String :=
  String.mk (lowerChars s.toList)

/-- Python `s.endswith("s")`. -/
def endsInS (s : String) : Bool :=
  s.toList.getLast? = some 's'

/-- Python `s[:-1]`. -/
def dropLastStr (s : String) : String :=
  String.mk s.toList.dropLast

/-- The letter-case boundary test of `TokenCollector._split_token`:
`raw[idx].isupper() and (raw[idx-1].islower() or
(idx + 1 < len(raw) and raw[idx+1].islower()))`. -/
def isCaseBoundary (raw : List Char) (idx : Nat) : Bool :=
  (raw.getD idx ' ').isUpper &&
    ((raw.getD (idx - 1) ' ').isLower ||
      (decide (idx + 1 < raw.length) && (raw.getD (idx + 1) ' ').isLower))

/-- One iteration of the camel-case splitting loop of `_split_token`:
at a boundary, emit the lower-cased slice since the previous start and
move the start to the boundary. -/
def camelStep (raw : List Char) (acc : List (List Char) × Nat) (idx : Nat) :
    List (List Char) × Nat :=
  if isCaseBoundary raw idx then
    (acc.1 ++ [lowerChars (sliceChars raw acc.2 idx)], idx)
  else acc

/-- The camel-case pieces of one underscore-delimited segment, as
computed by the index loop of `_split_token` (each piece already
lower-cased, the final slice appended after the loop). -/
def camelParts (raw : List Char) : List (List Char) :=
  let r := (List.range' 1 (raw.length - 1)).foldl (camelStep raw) ([], 0)
  r.1 ++ [lowerChars (sliceChars raw r.2 raw.length)]

/-- The lower-cased pieces of a whole (hyphen-normalized) token: split
on underscores, skip empty segments, camel-split each segment. -/
def splitTokenParts (token : String) : List String :=
  ((splitStr '_' token).filter (fun r => r ≠ "")).flatMap
    (fun raw => (camelParts raw.toList).map (fun l => String.mk l))

/-- Embedding of `TokenCollector._split_token`: the token set extracted from one
path-component token — the camel pieces, the lower-cased whole token,
the singulars of long plural pieces, all filtered by minimum length
and stopwords. -/
def splitToken (cfg : TokenCfg) (token0 : String) : Finset String :=
  let token := hyphensToUnderscores token0
  let parts := splitTokenParts token
  let tokens := parts.toFinset ∪ {lowerStr token} ∪
    ((parts.filter (fun p => decide (4 < p.length) && endsInS p)).map
      dropLastStr).toFinset
  tokens.filter (fun t => cfg.minimumLength ≤ (t.length : Int) ∧ t ∉ cfg.stopwords)

/-- Modelled from the specification's wording: a split boundary exists
wherever an uppercase letter follows a lowercase one or precedes a
lowercase one (positions beyond the segment hold no letter). -/
def boundarySpec (raw : List Char) (i : Nat) : Bool :=
  (raw.getD i ' ').isUpper &&
    ((raw.getD (i - 1) ' ').isLower || (raw.getD (i + 1) ' ').isLower)

/-- Every interior position of the segment that is a split boundary. -/
def boundaryPositions (raw : List Char) : List Nat :=
  (List.range raw.length).filter (fun i => decide (0 < i) && boundarySpec raw i)

/-- Cut a segment at the given ascending positions. -/
def rawChunks (raw : List Char) (start : Nat) : List Nat → List (List Char)
  | [] => [sliceChars raw start raw.length]
  | p :: ps => sliceChars raw start p :: rawChunks raw p ps

/-- Modelled from the specification's wording: the camel pieces of a
segment are the chunks between boundary positions, case-folded. -/
def specPieces (raw : List Char) : List (List Char) :=
  (rawChunks raw 0 (boundaryPositions raw)).map lowerChars

/-- The reference tokenization pipeline, following the claim's words,
with `specPieces` in place of the index loop. -/
def splitTokenSpec (cfg : TokenCfg) (token0 : String) : Finset String :=
  let token := hyphensToUnderscores token0
  let parts := ((splitStr '_' token).filter (fun r => r ≠ "")).flatMap
    (fun raw => (specPieces raw.toList).map (fun l => String.mk l))
  let tokens := parts.toFinset ∪ {lowerStr token} ∪
    ((parts.filter (fun p => decide (4 < p.length) && endsInS p)).map
      dropLastStr).toFinset
  tokens.filter (fun t => cfg.minimumLength ≤ (t.length : Int) ∧ t ∉ cfg.stopwords)

/-- The resolver-facing configuration: root, token settings and the
externally supplied test-naming predicate on file paths. -/
structure Cfg where
  root : PyPath
  tokens : TokenCfg
  isTestPath : PyPath → Bool

/-- Embedding of `path.relative_to(root).parts`, falling back to `path.parts` when
the path is not under the root. -/
def relParts (root : PyPath) (p : PyPath) : List String :=
  if root.isPrefixOf p then p.drop root.length else p

/-- Python `part.split(".")[0]`: a component with its extension
stripped. -/
def baseOf (part : String) : String :=
  (splitStr '.' part).headD ""

/-- Embedding of `TokenCollector.path_tokens`: tokens of every component of the
root-relative path. -/
def pathTokens (cfg : Cfg) (p : PyPath) : Finset String :=
  (relParts cfg.root p).foldl
    (fun acc part => acc ∪ splitToken cfg.tokens (baseOf part)) ∅

/-- Embedding of `TokenCollector.directory_tokens`: tokens of every component except
the final filename. -/
def dirTokens (cfg : Cfg) (p : PyPath) : Finset String :=
  ((relParts cfg.root p).dropLast).foldl
    (fun acc part => acc ∪ splitToken cfg.tokens (baseOf part)) ∅

/-- The per-changed-file fallback score: sum of the character lengths
of the tokens shared by the two path-token sets. -/
def tokenScore (testToks staged : Finset String) : Int :=
  (testToks ∩ staged).sum (fun t => (t.length : Int))

/-- Python `max(scores) if scores else 0`. -/
def maxScoreList : List Int → Int
  | [] => 0
  | s :: ss => ss.foldl max s

/-- Embedding of `indexer.ModuleIndex`: name-to-info and path-to-name maps. -/
structure RIndex where
  modules : List (String × MInfo)
  byPath : List (PyPath × String)

/-- Everything `ImpactResolver.resolve` consults: configuration, index,
per-module data and the reverse import graph
(module name, then symbol-or-sentinel, then dependants). -/
structure RCtx where
  cfg : Cfg
  idx : RIndex
  mdata : List (String × MData)
  reverse : List (String × List (Sym × List String))

/-- A work-queue entry: a module paired with a symbol or the
whole-module sentinel. -/
abbrev Pair := String × Sym

/-- Embedding of `modules.get(module)` followed by the externally supplied
test-naming predicate; a module absent from the index is never a test
module (`if info and self._is_test_module(info)`). -/
def isTestModule (ctx : RCtx) (m : String) : Bool :=
  match List.lookup m ctx.idx.modules with
  | some info => ctx.cfg.isTestPath info.path
  | none => false

/-- Embedding of `reverse_imports.get(module, {}).get(symbol, set())`. -/
def revLookup (ctx : RCtx) (m : String) (s : Sym) : List String :=
  match List.lookup m ctx.reverse with
  | none => []
  | some mp => (List.lookup s mp).getD []

/-- The dependant re-check of `resolve`: before enqueuing, consult the
dependant's own recorded import set for the popped module; a dependant
with no module data contributes nothing. -/
def expandOne (ctx : RCtx) (m : String) (s : Sym) (d : String) : List Pair :=
  match List.lookup d ctx.mdata with
  | none => []
  | some dd =>
    let imported := importsGetD dd.imports m
    match s with
    | none => if none ∈ imported then [(d, (none : Sym))] else []
    | some sym =>
      (if some sym ∈ imported then [(d, (some sym : Sym))] else []) ++
        (if none ∈ imported then [(d, (none : Sym))] else [])

/-- Expansion of one fresh, non-test work-queue entry: the dependants
drawn from the reverse graph (for a concrete symbol, also those keyed
by the sentinel), each re-checked against its own recorded import set
for the popped module before being enqueued. -/
def expandEntry (ctx : RCtx) (m : String) (s : Sym) : List Pair :=
  let dependants : List String :=
    match s with
    | none => revLookup ctx m none
    | some sym => (revLookup ctx m (some sym) ++ revLookup ctx m none).dedup
  dependants.flatMap (expandOne ctx m s)

/-- The `while queue` loop of `ImpactResolver.resolve`, indexed by
fuel: pop an entry, skip it when visited, record a test module as
impacted without expanding it, and otherwise enqueue its expansion.
`none` means the fuel ran out before the queue drained. -/
def bfsLoop (ctx : RCtx) :
    Nat → List Pair → Finset Pair → Finset String →
      Option (Finset String × Finset Pair)
  | _, [], vis, imp => some (imp, vis)
  | 0, _ :: _, _, _ => none
  | Nat.succ fuel, (m, s) :: rest, vis, imp =>
    if (m, s) ∈ vis then bfsLoop ctx fuel rest vis imp
    else
      let vis' := insert (m, s) vis
      if isTestModule ctx m then bfsLoop ctx fuel rest vis' (insert m imp)
      else bfsLoop ctx fuel (rest ++ expandEntry ctx m s) vis' imp

/-- Embedding of the changed-module set computation of `resolve`,
as a deduplicated list. -/
def changedModules (ctx : RCtx) (changed : List PyPath) : List String :=
  (changed.filterMap (fun p => List.lookup p ctx.idx.byPath)).dedup

/-- The initial work queue: for every changed module one entry per
exported symbol plus one whole-module-sentinel entry (seeded even when
the module has no data or no exports). -/
def seedQueue (ctx : RCtx) (cm : List String) : List Pair :=
  cm.flatMap (fun m =>
    (match List.lookup m ctx.mdata with
     | some d => d.exports.map (fun s => ((m, some s) : Pair))
     | none => []) ++ [(m, (none : Sym))])

/-- Total number of dependant entries recorded in the reverse graph,
used only to bound the work of one expansion. -/
def revSize (ctx : RCtx) : Nat :=
  (ctx.reverse.map (fun e => (e.2.map (fun e2 => e2.2.length)).sum)).sum

/-- An upper bound on the length of any `expandEntry` result. -/
def expandBound (ctx : RCtx) : Nat :=
  4 * revSize ctx + 1

/-- The symbols that can ever sit in the work queue: the sentinel and
the symbols of the initial queue. -/
def symsU (q0 : List Pair) : Finset Sym :=
  insert none (q0.map Prod.snd).toFinset

/-- The pairs that can ever sit in the work queue: the initial queue
and any module known to `module_data` paired with a reachable symbol. -/
def pairU (ctx : RCtx) (q0 : List Pair) : Finset Pair :=
  q0.toFinset ∪ (ctx.mdata.map Prod.fst).toFinset ×ˢ symsU q0

/-- Fuel sufficient for the loop to drain its queue. -/
def fuelFor (ctx : RCtx) (q0 : List Pair) : Nat :=
  ((pairU ctx q0).card + 1) * (expandBound ctx + 1) + q0.length + 1

/-- The graph-propagation stage of `resolve`: seed the queue from the
changed modules and drain it; returns the impacted-module set and the
visited set.  The loop is skipped when no changed path is indexed. -/
def graphResult (ctx : RCtx) (changed : List PyPath) :
    Finset String × Finset Pair :=
  let cm := changedModules ctx changed
  if cm.isEmpty then (∅, ∅)
  else
    let q0 := seedQueue ctx cm
    (bfsLoop ctx (fuelFor ctx q0) q0 ∅ ∅).getD (∅, ∅)

/-- The visited set accumulated by the graph-propagation stage. -/
def graphVisited (ctx : RCtx) (changed : List PyPath) : Finset Pair :=
  (graphResult ctx changed).2

/-- The effective fallback threshold: a non-positive configured
threshold is raised to 1. -/
def effThreshold (cfg : Cfg) : Int :=
  if cfg.tokens.fallbackScore ≤ 0 then 1 else cfg.tokens.fallbackScore

/-- The fallback decision for one candidate test path: `some module`
when the path is indexed, its maximum token-overlap score over the
changed files reaches the effective threshold, its directory tokens
intersect some changed file's directory tokens, and its module name is
truthy. -/
def fallbackPick (ctx : RCtx) (changed : List PyPath) (p : PyPath) :
    Option String :=
  if (List.lookup p ctx.idx.byPath).isNone then none
  else
    let scores := changed.map (fun c =>
      tokenScore (pathTokens ctx.cfg p) (pathTokens ctx.cfg c))
    let score := maxScoreList scores
    if score < effThreshold ctx.cfg then none
    else if ¬ changed.any (fun c =>
        decide ((dirTokens ctx.cfg p ∩ dirTokens ctx.cfg c).Nonempty)) then none
    else
      match List.lookup p ctx.idx.byPath with
      | some moduleName => if moduleName ≠ "" then some moduleName else none
      | none => none

/-- Whether a candidate test path is fallback-selected. -/
def fallbackSelects (ctx : RCtx) (changed : List PyPath) (p : PyPath) : Bool :=
  (fallbackPick ctx changed p).isSome

/-- The candidate test paths: paths of indexed modules satisfying the
test-naming predicate (the keys of `self.test_tokens`). -/
def testPaths (ctx : RCtx) : List PyPath :=
  ctx.idx.modules.filterMap (fun e =>
    if ctx.cfg.isTestPath e.2.path then some e.2.path else none)

/-- The fallback stage of `resolve`: the module names of all
fallback-selected candidate test paths. -/
def fallbackModules (ctx : RCtx) (changed : List PyPath) : Finset String :=
  (testPaths ctx).foldl (fun acc p =>
    match fallbackPick ctx changed p with
    | some m => insert m acc
    | none => acc) ∅

/-- Lexicographic comparison of paths, used for the final sort. -/
def pathLe : PyPath → PyPath → Bool
  | [], _ => true
  | _ :: _, [] => false
  | a :: as', b :: bs => if a = b then pathLe as' bs else decide (a ≤ b)

/-- Embedding of `ImpactResolver.resolve`: empty input yields no tests; otherwise
the union of graph-impacted and fallback-selected modules, restricted
to indexed test modules, mapped to their paths and sorted. -/
def resolve (ctx : RCtx) (changed : List PyPath) : List PyPath :=
  if changed.isEmpty then []
  else
    let impacted := (graphResult ctx changed).1 ∪ fallbackModules ctx changed
    let names := (impacted.filter (fun m => isTestModule ctx m = true)).sort (· ≤ ·)
    let paths := names.filterMap
      (fun m => (List.lookup m ctx.idx.modules).map (fun info => info.path))
    paths.mergeSort pathLe

/-- A two-module index shared by the concrete examples below. -/
def exIdx : RIndex :=
  ⟨[("a", ⟨"a", ["ta.py"], [], false⟩), ("b", ⟨"b", ["b.py"], [], false⟩)],
    [(["ta.py"], "a"), (["b.py"], "b")]⟩

/-- A configuration classifying module `a`'s file as a test file. -/
def exCfgTest : Cfg :=
  ⟨[], ⟨3, 12, []⟩, fun p => decide (p = ["ta.py"])⟩

/-- A configuration classifying no file as a test file. -/
def exCfgPlain : Cfg :=
  ⟨[], ⟨3, 12, []⟩, fun _ => false⟩

/-- A context where `b` imports `a` wholesale and `a` is a test module. -/
def exCtxTest : RCtx :=
  ⟨exCfgTest, exIdx,
    [("a", ⟨[], []⟩), ("b", ⟨[], [("a", [(none : Sym)])]⟩)],
    [("a", [((none : Sym), ["b"])])]⟩

/-- A context where `b` imports `a` wholesale and nothing is a test
module; `a` has no exports at all. -/
def exCtxPlain : RCtx :=
  ⟨exCfgPlain, exIdx,
    [("a", ⟨[], []⟩), ("b", ⟨[], [("a", [(none : Sym)])]⟩)],
    [("a", [((none : Sym), ["b"])])]⟩

/-- A context where `b` imports only the symbol `s` from `a`. -/
def exCtxSym : RCtx :=
  ⟨exCfgPlain, exIdx,
    [("a", ⟨["s", "t"], []⟩), ("b", ⟨[], [("a", [(some "s" : Sym)])]⟩)],
    [("a", [((some "s" : Sym), ["b"])])]⟩

/-- A context with an import cycle: `a` imports `b` and `b` imports
`a`, both wholesale. -/
def exCtxCycle : RCtx :=
  ⟨exCfgPlain, exIdx,
    [("a", ⟨["f"], [("b", [(none : Sym)])]⟩),
      ("b", ⟨[], [("a", [(none : Sym)])]⟩)],
    [("a", [((none : Sym), ["b"])]), ("b", [((none : Sym), ["a"])])]⟩

/-- A fallback-matcher context with a zero threshold, zero minimum
token length and no stopwords, one candidate test file under
`r/tests/.y/` and nothing else. -/
def exCtxFb : RCtx :=
  ⟨⟨["r"], ⟨0, 0, []⟩, fun p => decide (p = ["r", "tests", ".y", "test_bar.py"])⟩,
    ⟨[("tb", ⟨"tb", ["r", "tests", ".y", "test_bar.py"], ["tests", ".y"], false⟩)],
      [(["r", "tests", ".y", "test_bar.py"], "tb")]⟩,
    [], []⟩

/-- The changed path used with `exCtxFb`: it shares only the empty
token (from the dot-leading directory) with the test file. -/
def exFbChanged : List PyPath :=
  [["r", "a", ".x", "foo.py"]]

/-- A fallback-matcher context with a positive threshold and a genuine
lexical match: the test file and the changed file share the directory
token `billing`. -/
def exCtxFb2 : RCtx :=
  ⟨⟨[], ⟨3, 3, []⟩,
      fun p => decide (p = ["tests", "billing", "test_tax.py"])⟩,
    ⟨[("tests.billing.test_tax",
        ⟨"tests.billing.test_tax", ["tests", "billing", "test_tax.py"],
          ["tests", "billing"], false⟩)],
      [(["tests", "billing", "test_tax.py"], "tests.billing.test_tax")]⟩,
    [], []⟩

/-! ### Helper lemmas -/

theorem filter_ne_empty_eq {l : List String} (h : "" ∉ l) :
    l.filter (fun part => part ≠ "") = l := by
  apply List.filter_eq_self.2
  intro a ha
  simp only [ne_eq, decide_eq_true_eq]
  intro e
  exact h (e ▸ ha)

theorem mem_of_lookup_eq_some {α β : Type} [BEq α] [LawfulBEq α]
    {l : List (α × β)}
    {k : α} {v : β} (h : List.lookup k l = some v) : (k, v) ∈ l := by
  induction l with
  | nil => simp [List.lookup] at h
  | cons e rest ih =>
    rw [List.lookup] at h
    by_cases hk : k = e.1
    · subst hk
      simp at h
      subst h
      exact List.mem_cons_self _ _
    · have hb : (k == e.1) = false := by simp [hk]
      rw [hb] at h
      exact List.mem_cons_of_mem _ (ih h)

theorem lookup_eq_some_of_mem_nodup {α β : Type} [BEq α] [LawfulBEq α]
    {l : List (α × β)} {k : α} {v : β} (hn : (l.map Prod.fst).Nodup)
    (h : (k, v) ∈ l) : List.lookup k l = some v := by
  induction l with
  | nil => simp at h
  | cons e rest ih =>
    simp only [List.map_cons, List.nodup_cons] at hn
    rcases List.mem_cons.1 h with h | h
    · subst h
      simp [List.lookup]
    · have hk : k ≠ e.1 := by
        intro e1
        exact hn.1 (e1 ▸ List.mem_map_of_mem Prod.fst h)
      have hb : (k == e.1) = false := by simp [hk]
      rw [List.lookup, hb]
      exact ih hn.2 h

/-! ### C4: relative import resolution -/

/-- Claim C4: `resolve_import_module` returns the target unchanged at
level 0; at level `L ≥ 1` it takes the importing module's own package
(its dotted name minus the trailing leaf, or the full dotted name for a
package entry point), removes `L - 1` further trailing components, and
appends the target's segments (none when the target is absent). -/
theorem rimBase_eq (info : MInfo) {L : Nat} (hL : 1 ≤ L) :
    rimBase info L = (ownPackage info).take ((ownPackage info).length - (L - 1)) := by
  have hP : (if info.isPackage = true then splitStr '.' info.name
      else (splitStr '.' info.name).dropLast) = ownPackage info := rfl
  simp only [rimBase, hP]
  split_ifs with h1 h2
  · congr 1
    omega
  · have hlen : (ownPackage info).length = 0 := by omega
    rw [List.length_eq_zero] at hlen
    simp [hlen]
  · have hL1 : L = 1 := by omega
    subst hL1
    simp [List.take_length]

/-- Claim C4: `resolve_import_module` returns the target unchanged at
level 0; at level `L ≥ 1` it takes the importing module's own package
(its dotted name minus the trailing leaf, or the full dotted name for a
package entry point), removes `L - 1` further trailing components, and
appends the target's segments (none when the target is absent). -/
theorem c4_relative_import_resolution (info : MInfo) :
    (∀ T, resolveImportModule info T 0 = T) ∧
    (∀ L t, 1 ≤ L → t ≠ "" → "" ∉ splitStr '.' t → "" ∉ ownPackage info →
      resolveImportModule info (some t) L =
        some (joinDots
          ((ownPackage info).take ((ownPackage info).length - (L - 1)) ++
            splitStr '.' t))) ∧
    (∀ L, 1 ≤ L → "" ∉ ownPackage info →
      resolveImportModule info none L =
        some (joinDots
          ((ownPackage info).take ((ownPackage info).length - (L - 1))))) := by
  refine ⟨fun T => rfl, fun L t hL ht hts hpk => ?_, fun L hL hpk => ?_⟩
  · have hL0 : L ≠ 0 := by omega
    unfold resolveImportModule
    rw [if_neg hL0, rimBase_eq info hL]
    show some (joinDots ((if t ≠ "" then
        (ownPackage info).take ((ownPackage info).length - (L - 1)) ++ splitStr '.' t
      else (ownPackage info).take ((ownPackage info).length - (L - 1))).filter
        (fun part => part ≠ ""))) = _
    rw [if_pos ht]
    refine congrArg some (congrArg joinDots (filter_ne_empty_eq ?_))
    intro hmem
    rcases List.mem_append.1 hmem with hmem | hmem
    · exact hpk (List.mem_of_mem_take hmem)
    · exact hts hmem
  · have hL0 : L ≠ 0 := by omega
    unfold resolveImportModule
    rw [if_neg hL0, rimBase_eq info hL]
    show some (joinDots
      (((ownPackage info).take ((ownPackage info).length - (L - 1))).filter
        (fun part => part ≠ ""))) = _
    refine congrArg some (congrArg joinDots (filter_ne_empty_eq ?_))
    intro hmem
    exact hpk (List.mem_of_mem_take hmem)

/-- Witness for C4 at a concrete module and import. -/
theorem c4_witness :
    resolveImportModule
      ⟨"pkg.sub.mod", ["pkg", "sub", "mod.py"], ["pkg", "sub"], false⟩
      (some "x.y") 2 = some "pkg.x.y" := by
  have h :=
    (c4_relative_import_resolution
      ⟨"pkg.sub.mod", ["pkg", "sub", "mod.py"], ["pkg", "sub"], false⟩).2.1
      2 "x.y" (by decide) (by decide) (by decide) (by decide)
  exact h.trans (by decide)

/-! ### C5: failure inputs yield the empty ModuleData -/

/-- Claim C5: `analyze_module` is a total function, and on each of the
three absorbed failure modes (unreadable file, undecodable content,
syntax error) it returns the empty `ModuleData`: no exports and
no imports. -/
theorem c5_failures_yield_empty_module_data (info : MInfo)
    (src : SourceOutcome)
    (h : src = .unreadable ∨ src = .undecodable ∨ src = .syntaxErr) :
    analyzeModule info src = ⟨[], []⟩ := by
  rcases h with h | h | h <;> subst h <;> rfl

/-- Witness for C5 at a concrete failing input. -/
theorem c5_witness :
    analyzeModule ⟨"m", ["m.py"], [], false⟩ .undecodable = ⟨[], []⟩ :=
  c5_failures_yield_empty_module_data _ _ (Or.inr (Or.inl rfl))

/-! ### C3: the export set of analyze_module -/

theorem foldl_step_exports_mem (info : MInfo) (x : String) :
    ∀ (l : List Stmt) (acc : List String × List (String × List Sym)),
      x ∈ (l.foldl (stepStmt info) acc).1 ↔
        x ∈ acc.1 ∨ ∃ s ∈ l, x ∈ exportsOf info s := by
  intro l
  induction l with
  | nil =>
    intro acc
    simp
  | cons s rest ih =>
    intro acc
    rw [List.foldl_cons, ih, List.exists_mem_cons_iff]
    show x ∈ acc.1 ++ exportsOf info s ∨ _ ↔ _
    rw [List.mem_append]
    tauto

/-- Claim C3 as amended: a name is in the export set of
`analyze_module` exactly when some statement node anywhere in the
walked tree (top-level or nested) binds it — as a function or class
definition name, an assignment-target name, or an import binding. -/
theorem c3_exports_characterization (info : MInfo) (tree : Block) (x : String) :
    x ∈ (analyzeTree info tree).exports ↔
      ∃ s ∈ walkBlock tree, x ∈ exportsOf info s := by
  unfold analyzeTree
  rw [foldl_step_exports_mem]
  simp

/-- Counterexample to claim C3 as stated: a function defined only
inside a nested scope (a function body) still lands in the export set,
because the analysis walks every node of the tree; the reference
top-level export set does not contain it. -/
theorem c3_counterexample :
    "inner" ∈ (analyzeModule ⟨"m", ["m.py"], [], false⟩
      (.parsed (.cons (.functionDef "outer"
        (.cons (.functionDef "inner" .nil) .nil)) .nil))).exports ∧
    "inner" ∉ topLevelExports ⟨"m", ["m.py"], [], false⟩
      (.cons (.functionDef "outer"
        (.cons (.functionDef "inner" .nil) .nil)) .nil) := by
  decide

/-! ### C6: the augmentation pass of build_module_data -/

theorem lookup_map_update_ne {β : Type} (g : β → β) (key m : String)
    (hne : m ≠ key) (imps : List (String × β)) :
    List.lookup m (imps.map (fun e => if e.1 = key then (e.1, g e.2) else e)) =
      List.lookup m imps := by
  induction imps with
  | nil => rfl
  | cons e rest ih =>
    by_cases he : e.1 = key
    · have hb : (m == e.1) = false := by simp [he ▸ hne]
      obtain ⟨k, v⟩ := e
      simp only at he
      simp only [List.map_cons, if_pos he, List.lookup_cons, hb]
      exact ih
    · obtain ⟨k, v⟩ := e
      simp only at he
      simp only [List.map_cons, if_neg he, List.lookup_cons]
      by_cases hm : m = k
      · simp [hm]
      · have hb : (m == k) = false := by simp [hm]
        simp only [hb]
        exact ih

theorem lookup_map_update_self {β : Type} (g : β → β) (key : String)
    (imps : List (String × β)) :
    List.lookup key (imps.map (fun e => if e.1 = key then (e.1, g e.2) else e)) =
      (List.lookup key imps).map g := by
  induction imps with
  | nil => rfl
  | cons e rest ih =>
    obtain ⟨k, v⟩ := e
    by_cases he : k = key
    · subst he
      simp [List.lookup_cons]
    · have hb : (key == k) = false := beq_eq_false_iff_ne.2 (Ne.symm he)
      simp only [List.map_cons, if_neg he, List.lookup_cons, hb]
      exact ih

theorem lookup_eq_none_of_not_contains {β : Type} {imps : List (String × β)}
    {key : String} (h : ((imps.map Prod.fst).contains key) = false) :
    List.lookup key imps = none := by
  induction imps with
  | nil => rfl
  | cons e rest ih =>
    simp only [List.map_cons, List.contains_cons, Bool.or_eq_false_iff] at h
    obtain ⟨k, v⟩ := e
    rw [List.lookup_cons]
    have : (key == k) = false := h.1
    rw [this]
    exact ih h.2

theorem lookup_isSome_of_contains {β : Type} {imps : List (String × β)}
    {key : String} (h : ((imps.map Prod.fst).contains key) = true) :
    (List.lookup key imps).isSome := by
  induction imps with
  | nil => simp at h
  | cons e rest ih =>
    obtain ⟨k, v⟩ := e
    simp only [List.map_cons, List.contains_cons] at h
    rw [List.lookup_cons]
    by_cases hk : key = k
    · simp [hk]
    · have hb : (key == k) = false := by simp [hk]
      rw [hb]
      rcases Bool.or_eq_true_iff.1 h with h1 | h2
      · exact absurd (by simpa using h1) hk
      · exact ih h2

theorem importsGetD_addSentinelKey_ne {imps : List (String × List Sym)}
    {key m : String} (hne : m ≠ key) :
    importsGetD (addSentinelKey imps key) m = importsGetD imps m := by
  unfold addSentinelKey importsGetD
  split_ifs with hc
  · rw [lookup_map_update_ne addNoneSym key m hne]
  · rw [List.lookup_append]
    have hb : (m == key) = false := by simp [hne]
    rw [List.lookup_cons, hb]
    show ((List.lookup m imps).or (List.lookup m [])).getD [] = _
    cases List.lookup m imps <;> rfl

theorem mem_importsGetD_addSentinelKey_self {imps : List (String × List Sym)}
    {key : String} {s : Sym} :
    s ∈ importsGetD (addSentinelKey imps key) key ↔
      s = none ∨ s ∈ importsGetD imps key := by
  unfold addSentinelKey importsGetD
  split_ifs with hc
  · rw [lookup_map_update_self]
    obtain ⟨l, hl⟩ := Option.isSome_iff_exists.1 (lookup_isSome_of_contains hc)
    rw [hl]
    show s ∈ (addNoneSym l) ↔ _
    unfold addNoneSym
    split_ifs with hn
    · constructor
      · exact fun h => Or.inr h
      · rintro (rfl | h)
        · exact hn
        · exact h
    · rw [List.mem_append]
      simp only [List.mem_singleton]
      tauto
  · have hc' : ((imps.map Prod.fst).contains key) = false := by
      simpa using hc
    have hnone := lookup_eq_none_of_not_contains hc'
    rw [List.lookup_append, hnone]
    simp [List.lookup_cons, Option.or]

theorem augmentOne_mem (idxNames : List String) (e : String × List Sym) :
    ∀ (acc : List (String × List Sym)) (m : String) (s : Sym),
      s ∈ importsGetD (augmentOne idxNames acc e) m ↔
        s ∈ importsGetD acc m ∨
          (s = none ∧ ∃ y, some y ∈ e.2 ∧ m = e.1 ++ "." ++ y ∧
            m ∈ idxNames) := by
  obtain ⟨t, syms⟩ := e
  unfold augmentOne
  simp only
  induction syms with
  | nil =>
    intro acc m s
    simp
  | cons s0 rest ih =>
    intro acc m s
    rw [List.foldl_cons, ih]
    cases s0 with
    | none =>
      rw [show augmentStep idxNames t acc none = acc from rfl]
      constructor
      · rintro (h | ⟨rfl, y, hy, rfl, hidx⟩)
        · exact Or.inl h
        · exact Or.inr ⟨rfl, y, List.mem_cons_of_mem _ hy, rfl, hidx⟩
      · rintro (h | ⟨rfl, y, hy, rfl, hidx⟩)
        · exact Or.inl h
        · rcases List.mem_cons.1 hy with hy | hy
          · exact absurd hy.symm (by simp)
          · exact Or.inr ⟨rfl, y, hy, rfl, hidx⟩
    | some y0 =>
      rw [show augmentStep idxNames t acc (some y0) =
        (if idxNames.contains (t ++ "." ++ y0) then
          addSentinelKey acc (t ++ "." ++ y0) else acc) from rfl]
      by_cases hin : idxNames.contains (t ++ "." ++ y0)
      · rw [if_pos hin]
        have hidx0 : (t ++ "." ++ y0) ∈ idxNames := by
          simpa using hin
        by_cases hm : m = t ++ "." ++ y0
        · subst hm
          rw [mem_importsGetD_addSentinelKey_self]
          constructor
          · rintro ((rfl | h) | ⟨rfl, y, hy, hmy, hidx⟩)
            · exact Or.inr ⟨rfl, y0, List.mem_cons_self _ _, rfl, hidx0⟩
            · exact Or.inl h
            · exact Or.inr ⟨rfl, y, List.mem_cons_of_mem _ hy, hmy, hidx⟩
          · rintro (h | ⟨rfl, y, hy, hmy, hidx⟩)
            · exact Or.inl (Or.inr h)
            · exact Or.inl (Or.inl rfl)
        · rw [importsGetD_addSentinelKey_ne hm]
          constructor
          · rintro (h | ⟨rfl, y, hy, hmy, hidx⟩)
            · exact Or.inl h
            · exact Or.inr ⟨rfl, y, List.mem_cons_of_mem _ hy, hmy, hidx⟩
          · rintro (h | ⟨rfl, y, hy, hmy, hidx⟩)
            · exact Or.inl h
            · rcases List.mem_cons.1 hy with hy | hy
              · have hyy : y = y0 := by simpa using hy
                exact absurd hmy (hyy ▸ hm)
              · exact Or.inr ⟨rfl, y, hy, hmy, hidx⟩
      · rw [if_neg hin]
        constructor
        · rintro (h | ⟨rfl, y, hy, hmy, hidx⟩)
          · exact Or.inl h
          · exact Or.inr ⟨rfl, y, List.mem_cons_of_mem _ hy, hmy, hidx⟩
        · rintro (h | ⟨rfl, y, hy, hmy, hidx⟩)
          · exact Or.inl h
          · rcases List.mem_cons.1 hy with hy | hy
            · have hyy : y = y0 := by simpa using hy
              subst hyy
              exact absurd (by simpa [hmy] using hidx) (by simpa using hin)
            · exact Or.inr ⟨rfl, y, hy, hmy, hidx⟩

theorem augment_foldl_mem (idxNames : List String) :
    ∀ (l : List (String × List Sym)) (acc : List (String × List Sym))
      (m : String) (s : Sym),
      s ∈ importsGetD (l.foldl (augmentOne idxNames) acc) m ↔
        s ∈ importsGetD acc m ∨
          (s = none ∧ ∃ e ∈ l, ∃ y, some y ∈ e.2 ∧ m = e.1 ++ "." ++ y ∧
            m ∈ idxNames) := by
  intro l
  induction l with
  | nil =>
    intro acc m s
    simp
  | cons e rest ih =>
    intro acc m s
    rw [List.foldl_cons, ih, augmentOne_mem, List.exists_mem_cons_iff]
    constructor
    · rintro ((h | ⟨rfl, hy⟩) | ⟨rfl, h⟩)
      · exact Or.inl h
      · exact Or.inr ⟨rfl, Or.inl hy⟩
      · exact Or.inr ⟨rfl, Or.inr h⟩
    · rintro (h | ⟨rfl, hy | h⟩)
      · exact Or.inl (Or.inl h)
      · exact Or.inl (Or.inr ⟨rfl, hy⟩)
      · exact Or.inr ⟨rfl, h⟩

/-- Claim C6: after the augmentation pass, a symbol is recorded for a
module in the final import map exactly when it was recorded before, or
it is the whole-module sentinel and the module is the dotted
concatenation of some recorded (target, concrete-symbol) pair that
names an indexed module; entries matching no indexed module are left
unchanged. -/
theorem c6_augmentation_characterization (idxNames : List String)
    (imps : List (String × List Sym)) (hn : (imps.map Prod.fst).Nodup)
    (m : String) (s : Sym) :
    s ∈ importsGetD (augmentImports idxNames imps) m ↔
      s ∈ importsGetD imps m ∨
        (s = none ∧ ∃ t y, some y ∈ importsGetD imps t ∧
          m = t ++ "." ++ y ∧ m ∈ idxNames) := by
  unfold augmentImports
  rw [augment_foldl_mem]
  constructor
  · rintro (h | ⟨rfl, e, he, y, hy, hmy, hidx⟩)
    · exact Or.inl h
    · refine Or.inr ⟨rfl, e.1, y, ?_, hmy, hidx⟩
      have : List.lookup e.1 imps = some e.2 :=
        lookup_eq_some_of_mem_nodup hn (by simpa using he)
      simpa [importsGetD, this] using hy
  · rintro (h | ⟨rfl, t, y, hy, hmy, hidx⟩)
    · exact Or.inl h
    · cases hl : List.lookup t imps with
      | none => simp [importsGetD, hl] at hy
      | some l =>
        refine Or.inr ⟨rfl, (t, l), mem_of_lookup_eq_some hl, y, ?_, hmy, hidx⟩
        simpa [importsGetD, hl] using hy

/-- Witness for C6 at a concrete import map: a symbol import whose
dotted concatenation names an indexed module receives the sentinel. -/
theorem c6_witness :
    ((([("pkg", [(some "mod" : Sym)]), ("other", [(some "x" : Sym)])].map
        Prod.fst).Nodup) ∧
    ((none : Sym) ∈ importsGetD
        (augmentImports ["pkg.mod"]
          [("pkg", [(some "mod" : Sym)]), ("other", [(some "x" : Sym)])])
        "pkg.mod" ↔
      (none : Sym) ∈ importsGetD
          [("pkg", [(some "mod" : Sym)]), ("other", [(some "x" : Sym)])]
          "pkg.mod" ∨
        ((none : Sym) = none ∧ ∃ t y, some y ∈ importsGetD
            [("pkg", [(some "mod" : Sym)]), ("other", [(some "x" : Sym)])] t ∧
          "pkg.mod" = t ++ "." ++ y ∧ "pkg.mod" ∈ ["pkg.mod"]))) :=
  ⟨by decide,
    c6_augmentation_characterization ["pkg.mod"]
      [("pkg", [(some "mod" : Sym)]), ("other", [(some "x" : Sym)])]
      (by decide) "pkg.mod" none⟩

/-! ### C9: the tokenizer matches its reference definition -/

theorem isCaseBoundary_eq_boundarySpec (raw : List Char) (i : Nat) :
    isCaseBoundary raw i = boundarySpec raw i := by
  unfold isCaseBoundary boundarySpec
  by_cases h : i + 1 < raw.length
  · simp [h]
  · have hd : raw[i + 1]? = none := by
      rw [List.getElem?_eq_none_iff]
      omega
    have hl : (' ' : Char).isLower = false := by decide
    simp [h, List.getD, hd, hl]

theorem foldl_camelStep_filter (raw : List Char) :
    ∀ (idxs : List Nat) (acc : List (List Char) × Nat),
      idxs.foldl (camelStep raw) acc =
        (idxs.filter (fun i => isCaseBoundary raw i)).foldl
          (fun acc2 idx =>
            (acc2.1 ++ [lowerChars (sliceChars raw acc2.2 idx)], idx)) acc := by
  intro idxs
  induction idxs with
  | nil => intro acc; rfl
  | cons i rest ih =>
    intro acc
    rw [List.foldl_cons, List.filter_cons]
    by_cases h : isCaseBoundary raw i
    · rw [if_pos h, List.foldl_cons]
      rw [show camelStep raw acc i =
        (acc.1 ++ [lowerChars (sliceChars raw acc.2 i)], i) from by
          unfold camelStep; rw [if_pos h]]
      exact ih _
    · rw [if_neg (by simpa using h)]
      rw [show camelStep raw acc i = acc from by
        unfold camelStep; rw [if_neg h]]
      exact ih _

theorem foldl_emit_rawChunks (raw : List Char) :
    ∀ (ps : List Nat) (parts : List (List Char)) (start : Nat),
      (ps.foldl (fun acc2 idx =>
          (acc2.1 ++ [lowerChars (sliceChars raw acc2.2 idx)], idx))
          (parts, start)).1 ++
        [lowerChars (sliceChars raw
          (ps.foldl (fun acc2 idx =>
            (acc2.1 ++ [lowerChars (sliceChars raw acc2.2 idx)], idx))
            (parts, start)).2 raw.length)] =
      parts ++ (rawChunks raw start ps).map lowerChars := by
  intro ps
  induction ps with
  | nil =>
    intro parts start
    simp [rawChunks]
  | cons p rest ih =>
    intro parts start
    rw [List.foldl_cons]
    show (rest.foldl _ (parts ++ [lowerChars (sliceChars raw start p)], p)).1 ++ _ = _
    rw [ih (parts ++ [lowerChars (sliceChars raw start p)]) p]
    rw [show rawChunks raw start (p :: rest) =
      sliceChars raw start p :: rawChunks raw p rest from rfl]
    simp

theorem boundaryPositions_eq (raw : List Char) :
    (List.range' 1 (raw.length - 1)).filter (fun i => isCaseBoundary raw i) =
      boundaryPositions raw := by
  unfold boundaryPositions
  cases hlen : raw.length with
  | zero =>
    have : raw = [] := List.length_eq_zero.1 hlen
    subst this
    rfl
  | succ n =>
    rw [List.range_eq_range', List.range'_succ]
    rw [List.filter_cons]
    rw [if_neg (by simp)]
    have hn : n + 1 - 1 = n := by omega
    rw [hn]
    apply List.filter_congr
    intro i hi
    have h1 : 1 ≤ i := (List.mem_range'_1.1 hi).1
    rw [isCaseBoundary_eq_boundarySpec, decide_eq_true (show 0 < i by omega),
      Bool.true_and]

theorem camelParts_eq_specPieces (raw : List Char) :
    camelParts raw = specPieces raw := by
  unfold camelParts specPieces
  rw [foldl_camelStep_filter, boundaryPositions_eq]
  exact foldl_emit_rawChunks raw (boundaryPositions raw) [] 0

/-- Claim C9: the tokenizer of the fallback matcher computes exactly
the reference token set (camel pieces between letter-case boundaries,
the case-folded whole token, singulars of long plural pieces, filtered
by minimum length and stopwords), and no token below the minimum
length or in the stopword set survives. -/
theorem c9_tokenizer_matches_reference (cfg : TokenCfg) (token : String) :
    splitToken cfg token = splitTokenSpec cfg token ∧
    (∀ t ∈ splitToken cfg token,
      cfg.minimumLength ≤ (t.length : Int) ∧ t ∉ cfg.stopwords) := by
  constructor
  · unfold splitToken splitTokenSpec splitTokenParts
    simp only [camelParts_eq_specPieces]
  · intro t ht
    unfold splitToken at ht
    exact (Finset.mem_filter.1 ht).2

/-- Witness for C9 at a concrete token. -/
theorem c9_witness :
    ("server" : String) ∈ splitToken ⟨3, 12, ["util"]⟩ "HTTPServer" ∧
    ((3 : Int) ≤ (("server" : String).length : Int) ∧
      ("server" : String) ∉ (["util"] : List String)) :=
  ⟨by decide,
    (c9_tokenizer_matches_reference ⟨3, 12, ["util"]⟩ "HTTPServer").2
      "server" (by decide)⟩

/-! ### The BFS work-queue loop -/

theorem lookup_le_sum {α β : Type} [BEq α] (f : β → Nat)
    {l : List (α × β)} {k : α} {v : β} (h : List.lookup k l = some v) :
    f v ≤ (l.map (fun e => f e.2)).sum := by
  induction l with
  | nil => simp [List.lookup] at h
  | cons e rest ih =>
    obtain ⟨a, b⟩ := e
    rw [List.lookup_cons] at h
    by_cases hk : (k == a) = true
    · rw [hk] at h
      have hv : b = v := by simpa using h
      subst hv
      simp only [List.map_cons, List.sum_cons]
      exact Nat.le_add_right _ _
    · rw [Bool.not_eq_true] at hk
      rw [hk] at h
      simp only [List.map_cons, List.sum_cons]
      exact (ih (by simpa using h)).trans (Nat.le_add_left _ _)

theorem revLookup_length_le (ctx : RCtx) (m : String) (s : Sym) :
    (revLookup ctx m s).length ≤ revSize ctx := by
  unfold revLookup revSize
  cases hm : List.lookup m ctx.reverse with
  | none => simp
  | some mp =>
    have h1 : (mp.map (fun e2 => e2.2.length)).sum ≤
        (ctx.reverse.map
          (fun e => (e.2.map (fun e2 => e2.2.length)).sum)).sum :=
      lookup_le_sum (fun mp2 => (mp2.map (fun e2 => e2.2.length)).sum) hm
    show ((List.lookup s mp).getD []).length ≤ _
    cases hs : List.lookup s mp with
    | none => simp
    | some l =>
      have h2 : l.length ≤ (mp.map (fun e2 => e2.2.length)).sum :=
        lookup_le_sum List.length hs
      rw [Option.getD_some]
      omega

theorem length_flatMap_le {α β : Type} (l : List α) (g : α → List β) (K : Nat)
    (h : ∀ a, (g a).length ≤ K) : (l.flatMap g).length ≤ l.length * K := by
  induction l with
  | nil => simp
  | cons a rest ih =>
    rw [List.flatMap_cons, List.length_append, List.length_cons,
      Nat.succ_mul]
    have := h a
    omega

theorem expandOne_length_le (ctx : RCtx) (m : String) (s : Sym) (d : String) :
    (expandOne ctx m s d).length ≤ 2 := by
  unfold expandOne
  cases List.lookup d ctx.mdata with
  | none => simp
  | some dd =>
    cases s with
    | none =>
      show (if none ∈ importsGetD dd.imports m
        then [((d, (none : Sym)) : Pair)] else []).length ≤ 2
      split_ifs <;> simp
    | some sym =>
      show ((if some sym ∈ importsGetD dd.imports m
          then [((d, (some sym : Sym)) : Pair)] else []) ++
        (if none ∈ importsGetD dd.imports m
          then [((d, (none : Sym)) : Pair)] else [])).length ≤ 2
      split_ifs <;> simp

theorem expandEntry_length_le (ctx : RCtx) (m : String) (s : Sym) :
    (expandEntry ctx m s).length ≤ expandBound ctx := by
  cases s with
  | none =>
    have hb : (revLookup ctx m none).length ≤ revSize ctx :=
      revLookup_length_le ctx m none
    have hlen := length_flatMap_le (revLookup ctx m none)
      (expandOne ctx m none) 2 (expandOne_length_le ctx m none)
    have hexp : expandEntry ctx m none =
        (revLookup ctx m none).flatMap (expandOne ctx m none) := rfl
    rw [hexp]
    unfold expandBound
    omega
  | some sym =>
    have hb1 : (revLookup ctx m (some sym)).length ≤ revSize ctx :=
      revLookup_length_le ctx m (some sym)
    have hb2 : (revLookup ctx m none).length ≤ revSize ctx :=
      revLookup_length_le ctx m none
    have hdeps : ((revLookup ctx m (some sym) ++
        revLookup ctx m none).dedup).length ≤ 2 * revSize ctx := by
      have := (List.dedup_sublist
        (revLookup ctx m (some sym) ++ revLookup ctx m none)).length_le
      rw [List.length_append] at this
      omega
    have hlen := length_flatMap_le
      ((revLookup ctx m (some sym) ++ revLookup ctx m none).dedup)
      (expandOne ctx m (some sym)) 2 (expandOne_length_le ctx m (some sym))
    have hexp : expandEntry ctx m (some sym) =
        ((revLookup ctx m (some sym) ++
          revLookup ctx m none).dedup).flatMap
          (expandOne ctx m (some sym)) := rfl
    rw [hexp]
    unfold expandBound
    omega

theorem mem_expandOne {ctx : RCtx} {m : String} {s : Sym} {d : String}
    {p : Pair} (hp : p ∈ expandOne ctx m s d) :
    p.1 = d ∧ (List.lookup d ctx.mdata).isSome ∧ (p.2 = s ∨ p.2 = none) ∧
      (∀ dd, List.lookup d ctx.mdata = some dd →
        p.2 ∈ importsGetD dd.imports m) := by
  unfold expandOne at hp
  cases hdd : List.lookup d ctx.mdata with
  | none =>
    rw [hdd] at hp
    simp at hp
  | some dd =>
    rw [hdd] at hp
    cases s with
    | none =>
      replace hp : p ∈ (if none ∈ importsGetD dd.imports m
        then [((d, (none : Sym)) : Pair)] else []) := hp
      split_ifs at hp with hin
      · rcases List.mem_singleton.1 hp with rfl
        refine ⟨rfl, by simp [hdd], Or.inl rfl, fun dd' hdd' => ?_⟩
        rcases Option.some.inj hdd' with rfl
        exact hin
      · simp at hp
    | some sym =>
      replace hp : p ∈ (if some sym ∈ importsGetD dd.imports m
          then [((d, (some sym : Sym)) : Pair)] else []) ++
        (if none ∈ importsGetD dd.imports m
          then [((d, (none : Sym)) : Pair)] else []) := hp
      rcases List.mem_append.1 hp with hp | hp
      · split_ifs at hp with hin
        · rcases List.mem_singleton.1 hp with rfl
          refine ⟨rfl, by simp [hdd], Or.inl rfl, fun dd' hdd' => ?_⟩
          rcases Option.some.inj hdd' with rfl
          exact hin
        · simp at hp
      · split_ifs at hp with hin
        · rcases List.mem_singleton.1 hp with rfl
          refine ⟨rfl, by simp [hdd], Or.inr rfl, fun dd' hdd' => ?_⟩
          rcases Option.some.inj hdd' with rfl
          exact hin
        · simp at hp

theorem mem_expandEntry {ctx : RCtx} {m : String} {s : Sym} {p : Pair}
    (hp : p ∈ expandEntry ctx m s) :
    (List.lookup p.1 ctx.mdata).isSome ∧ (p.2 = s ∨ p.2 = none) := by
  unfold expandEntry at hp
  rw [List.mem_flatMap] at hp
  obtain ⟨d, hd, hpd⟩ := hp
  obtain ⟨rfl, hsome, hps, _⟩ := mem_expandOne hpd
  exact ⟨hsome, hps⟩

theorem mem_symsU_of_mem_pairU {ctx : RCtx} {q0 : List Pair} {m : String}
    {s : Sym} (h : ((m, s) : Pair) ∈ pairU ctx q0) : s ∈ symsU q0 := by
  unfold pairU at h
  rcases Finset.mem_union.1 h with h | h
  · unfold symsU
    apply Finset.mem_insert_of_mem
    rw [List.mem_toFinset] at h ⊢
    exact List.mem_map_of_mem Prod.snd h
  · exact (Finset.mem_product.1 h).2

theorem pairU_closed (ctx : RCtx) (q0 : List Pair) :
    ∀ m s, ((m, s) : Pair) ∈ pairU ctx q0 →
      ∀ p ∈ expandEntry ctx m s, p ∈ pairU ctx q0 := by
  intro m s hms p hp
  obtain ⟨hsome, hps⟩ := mem_expandEntry hp
  unfold pairU
  apply Finset.mem_union_right
  rw [Finset.mem_product]
  constructor
  · rw [List.mem_toFinset]
    obtain ⟨dd, hdd⟩ := Option.isSome_iff_exists.1 hsome
    exact List.mem_map_of_mem Prod.fst (mem_of_lookup_eq_some hdd)
  · rcases hps with h | h
    · rw [h]
      exact mem_symsU_of_mem_pairU hms
    · rw [h]
      exact Finset.mem_insert_self _ _

theorem bfsLoop_fuel_succ (ctx : RCtx) :
    ∀ (n : Nat) (q : List Pair) (vis : Finset Pair) (imp : Finset String)
      (r : Finset String × Finset Pair),
      bfsLoop ctx n q vis imp = some r →
      bfsLoop ctx (n + 1) q vis imp = some r := by
  intro n
  induction n with
  | zero =>
    intro q vis imp r h
    cases q with
    | nil => exact h
    | cons p rest => simp [bfsLoop] at h
  | succ n ih =>
    intro q vis imp r h
    cases q with
    | nil => exact h
    | cons p rest =>
      obtain ⟨m, s⟩ := p
      simp only [bfsLoop] at h ⊢
      split_ifs at h ⊢ with h1 h2
      · exact ih _ _ _ _ h
      · exact ih _ _ _ _ h
      · exact ih _ _ _ _ h

theorem bfsLoop_fuel_mono (ctx : RCtx) {n n' : Nat} (hnn : n ≤ n')
    {q : List Pair} {vis : Finset Pair} {imp : Finset String}
    {r : Finset String × Finset Pair}
    (h : bfsLoop ctx n q vis imp = some r) :
    bfsLoop ctx n' q vis imp = some r := by
  induction hnn with
  | refl => exact h
  | step _ ih => exact bfsLoop_fuel_succ ctx _ _ _ _ _ ih

theorem bfsLoop_isSome (ctx : RCtx) (U : Finset Pair) (K : Nat)
    (hU : ∀ m s, ((m, s) : Pair) ∈ U → ∀ p ∈ expandEntry ctx m s, p ∈ U)
    (hK : ∀ m s, (expandEntry ctx m s).length ≤ K) :
    ∀ (n : Nat) (q : List Pair) (vis : Finset Pair) (imp : Finset String),
      (∀ p ∈ q, p ∈ U) →
      (U \ vis).card * (K + 1) + q.length ≤ n →
      (bfsLoop ctx n q vis imp).isSome := by
  intro n
  induction n with
  | zero =>
    intro q vis imp hq hm
    have hq0 : q = [] := List.length_eq_zero.1 (by omega)
    subst hq0
    simp [bfsLoop]
  | succ n ih =>
    intro q vis imp hq hm
    cases q with
    | nil => simp [bfsLoop]
    | cons p rest =>
      obtain ⟨m, s⟩ := p
      simp only [bfsLoop]
      split_ifs with h1 h2
      · apply ih rest vis imp (fun p hp => hq p (List.mem_cons_of_mem _ hp))
        simp only [List.length_cons] at hm
        omega
      · apply ih rest (insert (m, s) vis) (insert m imp)
          (fun p hp => hq p (List.mem_cons_of_mem _ hp))
        have hc : (U \ insert (m, s) vis).card ≤ (U \ vis).card :=
          Finset.card_le_card
            (Finset.sdiff_subset_sdiff (Finset.Subset.refl _)
              (Finset.subset_insert _ _))
        have hmul := Nat.mul_le_mul_right (K + 1) hc
        simp only [List.length_cons] at hm
        omega
      · have hmsU : ((m, s) : Pair) ∈ U := hq _ (List.mem_cons_self _ _)
        have hmem : ((m, s) : Pair) ∈ U \ vis := Finset.mem_sdiff.2 ⟨hmsU, h1⟩
        have hsd : U \ insert (m, s) vis = (U \ vis).erase (m, s) := by
          ext x
          simp only [Finset.mem_sdiff, Finset.mem_erase, Finset.mem_insert]
          tauto
        have hcard : (U \ insert (m, s) vis).card = (U \ vis).card - 1 := by
          rw [hsd]
          exact Finset.card_erase_of_mem hmem
        have hpos : 1 ≤ (U \ vis).card := Finset.card_pos.2 ⟨_, hmem⟩
        apply ih (rest ++ expandEntry ctx m s) (insert (m, s) vis) imp
        · intro p hp
          rcases List.mem_append.1 hp with hp | hp
          · exact hq p (List.mem_cons_of_mem _ hp)
          · exact hU m s hmsU p hp
        · rw [List.length_append, hcard]
          have hKe := hK m s
          simp only [List.length_cons] at hm
          obtain ⟨C, hC⟩ : ∃ C, (U \ vis).card = C + 1 :=
            ⟨(U \ vis).card - 1, by omega⟩
          rw [hC] at hm ⊢
          rw [Nat.succ_mul] at hm
          simp only [Nat.add_sub_cancel]
          omega

theorem bfsLoop_vis_mono (ctx : RCtx) :
    ∀ (n : Nat) (q : List Pair) (vis : Finset Pair) (imp : Finset String)
      (imp' : Finset String) (vis' : Finset Pair),
      bfsLoop ctx n q vis imp = some (imp', vis') →
      vis ⊆ vis' ∧ ∀ p ∈ q, p ∈ vis' := by
  intro n
  induction n with
  | zero =>
    intro q vis imp imp' vis' h
    cases q with
    | nil =>
      simp only [bfsLoop, Option.some.injEq, Prod.mk.injEq] at h
      obtain ⟨rfl, rfl⟩ := h
      exact ⟨Finset.Subset.refl _, by simp⟩
    | cons p rest => simp [bfsLoop] at h
  | succ n ih =>
    intro q vis imp imp' vis' h
    cases q with
    | nil =>
      simp only [bfsLoop, Option.some.injEq, Prod.mk.injEq] at h
      obtain ⟨rfl, rfl⟩ := h
      exact ⟨Finset.Subset.refl _, by simp⟩
    | cons p rest =>
      obtain ⟨m, s⟩ := p
      simp only [bfsLoop] at h
      split_ifs at h with h1 h2
      · obtain ⟨hsub, hqv⟩ := ih rest vis imp imp' vis' h
        refine ⟨hsub, fun p hp => ?_⟩
        rcases List.mem_cons.1 hp with rfl | hp
        · exact hsub h1
        · exact hqv p hp
      · obtain ⟨hsub, hqv⟩ := ih rest (insert (m, s) vis) (insert m imp)
          imp' vis' h
        refine ⟨(Finset.subset_insert _ _).trans hsub, fun p hp => ?_⟩
        rcases List.mem_cons.1 hp with rfl | hp
        · exact hsub (Finset.mem_insert_self _ _)
        · exact hqv p hp
      · obtain ⟨hsub, hqv⟩ := ih (rest ++ expandEntry ctx m s)
          (insert (m, s) vis) imp imp' vis' h
        refine ⟨(Finset.subset_insert _ _).trans hsub, fun p hp => ?_⟩
        rcases List.mem_cons.1 hp with rfl | hp
        · exact hsub (Finset.mem_insert_self _ _)
        · exact hqv p (List.mem_append_left _ hp)

theorem bfsLoop_closed (ctx : RCtx) :
    ∀ (n : Nat) (q : List Pair) (vis : Finset Pair) (imp : Finset String)
      (imp' : Finset String) (vis' : Finset Pair),
      bfsLoop ctx n q vis imp = some (imp', vis') →
      (∀ m s, ((m, s) : Pair) ∈ vis →
        (isTestModule ctx m = true → m ∈ imp) ∧
        (isTestModule ctx m = false →
          ∀ p ∈ expandEntry ctx m s, p ∈ vis ∨ p ∈ q)) →
      ∀ m s, ((m, s) : Pair) ∈ vis' →
        (isTestModule ctx m = true → m ∈ imp') ∧
        (isTestModule ctx m = false →
          ∀ p ∈ expandEntry ctx m s, p ∈ vis') := by
  intro n
  induction n with
  | zero =>
    intro q vis imp imp' vis' h hinv
    cases q with
    | nil =>
      simp only [bfsLoop, Option.some.injEq, Prod.mk.injEq] at h
      obtain ⟨rfl, rfl⟩ := h
      intro m s hms
      refine ⟨(hinv m s hms).1, fun ht p hp => ?_⟩
      rcases (hinv m s hms).2 ht p hp with hv | hv
      · exact hv
      · simp at hv
    | cons p rest => simp [bfsLoop] at h
  | succ n ih =>
    intro q vis imp imp' vis' h hinv
    cases q with
    | nil =>
      simp only [bfsLoop, Option.some.injEq, Prod.mk.injEq] at h
      obtain ⟨rfl, rfl⟩ := h
      intro m s hms
      refine ⟨(hinv m s hms).1, fun ht p hp => ?_⟩
      rcases (hinv m s hms).2 ht p hp with hv | hv
      · exact hv
      · simp at hv
    | cons phd rest =>
      obtain ⟨m0, s0⟩ := phd
      simp only [bfsLoop] at h
      split_ifs at h with h1 h2
      · apply ih rest vis imp imp' vis' h
        intro m s hms
        refine ⟨(hinv m s hms).1, fun ht p hp => ?_⟩
        rcases (hinv m s hms).2 ht p hp with hin | hin
        · exact Or.inl hin
        · rcases List.mem_cons.1 hin with rfl | hin
          · exact Or.inl h1
          · exact Or.inr hin
      · apply ih rest (insert (m0, s0) vis) (insert m0 imp) imp' vis' h
        intro m s hms
        rcases Finset.mem_insert.1 hms with heq | hms0
        · rw [Prod.mk.injEq] at heq
          obtain ⟨rfl, rfl⟩ := heq
          refine ⟨fun _ => Finset.mem_insert_self _ _, fun ht p hp => ?_⟩
          rw [h2] at ht
          exact absurd ht (by simp)
        · refine ⟨fun ht => Finset.mem_insert_of_mem ((hinv m s hms0).1 ht),
            fun ht p hp => ?_⟩
          rcases (hinv m s hms0).2 ht p hp with hin | hin
          · exact Or.inl (Finset.mem_insert_of_mem hin)
          · rcases List.mem_cons.1 hin with rfl | hin
            · exact Or.inl (Finset.mem_insert_self _ _)
            · exact Or.inr hin
      · apply ih (rest ++ expandEntry ctx m0 s0) (insert (m0, s0) vis) imp
          imp' vis' h
        intro m s hms
        rcases Finset.mem_insert.1 hms with heq | hms0
        · rw [Prod.mk.injEq] at heq
          obtain ⟨rfl, rfl⟩ := heq
          refine ⟨fun ht => absurd ht h2,
            fun _ p hp => Or.inr (List.mem_append_right _ hp)⟩
        · refine ⟨fun ht => (hinv m s hms0).1 ht, fun ht p hp => ?_⟩
          rcases (hinv m s hms0).2 ht p hp with hin | hin
          · exact Or.inl (Finset.mem_insert_of_mem hin)
          · rcases List.mem_cons.1 hin with rfl | hin
            · exact Or.inl (Finset.mem_insert_self _ _)
            · exact Or.inr (List.mem_append_left _ hin)

theorem bfsLoop_vis_sub (ctx : RCtx) (U : Finset Pair)
    (hU : ∀ m s, ((m, s) : Pair) ∈ U → ∀ p ∈ expandEntry ctx m s, p ∈ U) :
    ∀ (n : Nat) (q : List Pair) (vis : Finset Pair) (imp : Finset String)
      (imp' : Finset String) (vis' : Finset Pair),
      bfsLoop ctx n q vis imp = some (imp', vis') →
      (∀ p ∈ q, p ∈ U) → vis ⊆ U → vis' ⊆ U := by
  intro n
  induction n with
  | zero =>
    intro q vis imp imp' vis' h hq hv
    cases q with
    | nil =>
      simp only [bfsLoop, Option.some.injEq, Prod.mk.injEq] at h
      obtain ⟨rfl, rfl⟩ := h
      exact hv
    | cons p rest => simp [bfsLoop] at h
  | succ n ih =>
    intro q vis imp imp' vis' h hq hv
    cases q with
    | nil =>
      simp only [bfsLoop, Option.some.injEq, Prod.mk.injEq] at h
      obtain ⟨rfl, rfl⟩ := h
      exact hv
    | cons p rest =>
      obtain ⟨m, s⟩ := p
      have hmU : ((m, s) : Pair) ∈ U := hq _ (List.mem_cons_self _ _)
      simp only [bfsLoop] at h
      split_ifs at h with h1 h2
      · exact ih rest vis imp imp' vis' h
          (fun p hp => hq p (List.mem_cons_of_mem _ hp)) hv
      · exact ih rest (insert (m, s) vis) (insert m imp) imp' vis' h
          (fun p hp => hq p (List.mem_cons_of_mem _ hp))
          (Finset.insert_subset hmU hv)
      · refine ih (rest ++ expandEntry ctx m s) (insert (m, s) vis) imp
          imp' vis' h (fun p hp => ?_) (Finset.insert_subset hmU hv)
        rcases List.mem_append.1 hp with hp | hp
        · exact hq p (List.mem_cons_of_mem _ hp)
        · exact hU m s hmU p hp

theorem seedQueue_mem_none {ctx : RCtx} {cm : List String} {A : String}
    (hA : A ∈ cm) : ((A, (none : Sym)) : Pair) ∈ seedQueue ctx cm := by
  unfold seedQueue
  rw [List.mem_flatMap]
  exact ⟨A, hA, List.mem_append_right _ (List.mem_singleton.2 rfl)⟩

theorem seedQueue_fst_mem {ctx : RCtx} {cm : List String} {p : Pair}
    (hp : p ∈ seedQueue ctx cm) : p.1 ∈ cm := by
  unfold seedQueue at hp
  obtain ⟨m, hm, hpm⟩ := List.mem_flatMap.1 hp
  rcases List.mem_append.1 hpm with h | h
  · cases hlk : List.lookup m ctx.mdata with
    | none =>
      rw [hlk] at h
      simp at h
    | some d =>
      rw [hlk] at h
      obtain ⟨s, hs, rfl⟩ := List.mem_map.1 h
      exact hm
  · rcases List.mem_singleton.1 h with rfl
    exact hm

theorem mem_changedModules {ctx : RCtx} {changed : List PyPath} {m : String}
    (hm : m ∈ changedModules ctx changed) :
    ∃ p ∈ changed, List.lookup p ctx.idx.byPath = some m := by
  unfold changedModules at hm
  rw [List.mem_dedup] at hm
  exact List.mem_filterMap.1 hm

theorem symsU_card_le (q0 : List Pair) :
    (symsU q0).card ≤ (q0.filterMap Prod.snd).toFinset.card + 1 := by
  unfold symsU
  have hsub : (q0.map Prod.snd).toFinset ⊆
      insert (none : Sym) ((q0.filterMap Prod.snd).toFinset.image some) := by
    intro s hs
    rw [List.mem_toFinset] at hs
    obtain ⟨p, hp, rfl⟩ := List.mem_map.1 hs
    cases hps : p.2 with
    | none =>
      exact Finset.mem_insert_self _ _
    | some y =>
      apply Finset.mem_insert_of_mem
      rw [Finset.mem_image]
      exact ⟨y, List.mem_toFinset.2
        (List.mem_filterMap.2 ⟨p, hp, by rw [hps]⟩), rfl⟩
  have h1 : (insert (none : Sym) (q0.map Prod.snd).toFinset).card ≤
      (insert (none : Sym)
        ((q0.filterMap Prod.snd).toFinset.image some)).card :=
    Finset.card_le_card
      (Finset.insert_subset (Finset.mem_insert_self _ _) hsub)
  have h2 := Finset.card_insert_le (none : Sym)
    ((q0.filterMap Prod.snd).toFinset.image some)
  have h3 := Finset.card_image_le (s := (q0.filterMap Prod.snd).toFinset)
    (f := (some : String → Sym))
  omega

/-- Claim C7: the resolution loop terminates on every finite context
(import cycles included) — the explicitly computed fuel always suffices
to drain the queue — and the number of processed (module, symbol) pairs
is bounded by the number of indexed modules times the number of
distinct seeded symbols plus one for the sentinel. -/
theorem c7_resolution_terminates (ctx : RCtx) (changed : List PyPath)
    (hmk : ∀ m ∈ ctx.mdata.map Prod.fst, m ∈ ctx.idx.modules.map Prod.fst)
    (hbp : ∀ pr ∈ ctx.idx.byPath, pr.2 ∈ ctx.idx.modules.map Prod.fst) :
    (bfsLoop ctx (fuelFor ctx (seedQueue ctx (changedModules ctx changed)))
        (seedQueue ctx (changedModules ctx changed)) ∅ ∅).isSome ∧
    (∀ imp' vis',
      bfsLoop ctx (fuelFor ctx (seedQueue ctx (changedModules ctx changed)))
          (seedQueue ctx (changedModules ctx changed)) ∅ ∅ =
        some (imp', vis') →
      vis'.card ≤ (ctx.idx.modules.map Prod.fst).toFinset.card *
        (((seedQueue ctx (changedModules ctx changed)).filterMap
            Prod.snd).toFinset.card + 1)) := by
  have hUc := pairU_closed ctx (seedQueue ctx (changedModules ctx changed))
  have hq0U : ∀ p ∈ seedQueue ctx (changedModules ctx changed),
      p ∈ pairU ctx (seedQueue ctx (changedModules ctx changed)) :=
    fun p hp => Finset.mem_union_left _ (List.mem_toFinset.2 hp)
  constructor
  · apply bfsLoop_isSome ctx
      (pairU ctx (seedQueue ctx (changedModules ctx changed)))
      (expandBound ctx) hUc (expandEntry_length_le ctx) _ _ ∅ ∅ hq0U
    rw [Finset.sdiff_empty]
    unfold fuelFor
    have hmul := Nat.mul_le_mul_right (expandBound ctx + 1)
      (show (pairU ctx (seedQueue ctx (changedModules ctx changed))).card ≤
        (pairU ctx (seedQueue ctx (changedModules ctx changed))).card + 1
        by omega)
    omega
  · intro imp' vis' hrun
    have hsub : vis' ⊆ pairU ctx (seedQueue ctx (changedModules ctx changed)) :=
      bfsLoop_vis_sub ctx _ hUc _ _ ∅ ∅ imp' vis' hrun hq0U
        (Finset.empty_subset _)
    have hUsub : pairU ctx (seedQueue ctx (changedModules ctx changed)) ⊆
        (ctx.idx.modules.map Prod.fst).toFinset ×ˢ
          symsU (seedQueue ctx (changedModules ctx changed)) := by
      intro p hp
      rcases Finset.mem_union.1 hp with hp | hp
      · rw [List.mem_toFinset] at hp
        rw [Finset.mem_product]
        constructor
        · obtain ⟨pa, hpa, hlk⟩ := mem_changedModules (seedQueue_fst_mem hp)
          rw [List.mem_toFinset]
          exact hbp _ (mem_of_lookup_eq_some hlk)
        · exact Finset.mem_insert_of_mem
            (List.mem_toFinset.2 (List.mem_map_of_mem Prod.snd hp))
      · rw [Finset.mem_product] at hp ⊢
        refine ⟨?_, hp.2⟩
        rw [List.mem_toFinset] at hp ⊢
        exact hmk _ hp.1
    have hcard1 : vis'.card ≤
        ((ctx.idx.modules.map Prod.fst).toFinset ×ˢ
          symsU (seedQueue ctx (changedModules ctx changed))).card :=
      Finset.card_le_card (hsub.trans hUsub)
    rw [Finset.card_product] at hcard1
    have hcard2 := symsU_card_le (seedQueue ctx (changedModules ctx changed))
    have hmul := Nat.mul_le_mul_left
      (ctx.idx.modules.map Prod.fst).toFinset.card hcard2
    omega

/-- Witness for C7 on a concrete context with an import cycle. -/
theorem c7_witness :
    ((∀ m ∈ exCtxCycle.mdata.map Prod.fst,
        m ∈ exCtxCycle.idx.modules.map Prod.fst) ∧
      (∀ pr ∈ exCtxCycle.idx.byPath,
        pr.2 ∈ exCtxCycle.idx.modules.map Prod.fst)) ∧
    (bfsLoop exCtxCycle
        (fuelFor exCtxCycle
          (seedQueue exCtxCycle (changedModules exCtxCycle [["ta.py"]])))
        (seedQueue exCtxCycle (changedModules exCtxCycle [["ta.py"]]))
        ∅ ∅).isSome :=
  ⟨⟨by decide, by decide⟩,
    (c7_resolution_terminates exCtxCycle [["ta.py"]]
      (by decide) (by decide)).1⟩

/-! ### C1: whole-module import propagation -/

/-- Claim C1 as amended: if module B records the whole-module sentinel
for module A, the reverse graph is consistent with the module data, A
is among the changed modules, and A itself is not classified as a test
module, then A is seeded with a whole-module-sentinel entry (even with
zero discovered exports) and the resolution reaches B: the pair
(B, sentinel) is visited. -/
theorem c1_whole_module_propagation (ctx : RCtx) (changed : List PyPath)
    (A B : String) (dB : MData)
    (hrev : ∀ e ∈ ctx.mdata, ∀ q ∈ e.2.imports, ∀ s ∈ q.2,
      e.1 ∈ revLookup ctx q.1 s)
    (hB : List.lookup B ctx.mdata = some dB)
    (hBA : none ∈ importsGetD dB.imports A)
    (hA : A ∈ changedModules ctx changed)
    (hAtest : isTestModule ctx A = false) :
    ((A, (none : Sym)) : Pair) ∈
      seedQueue ctx (changedModules ctx changed) ∧
    ((B, (none : Sym)) : Pair) ∈ graphVisited ctx changed := by
  have hseed : ((A, (none : Sym)) : Pair) ∈
      seedQueue ctx (changedModules ctx changed) := seedQueue_mem_none hA
  refine ⟨hseed, ?_⟩
  have hUc := pairU_closed ctx (seedQueue ctx (changedModules ctx changed))
  have hq0U : ∀ p ∈ seedQueue ctx (changedModules ctx changed),
      p ∈ pairU ctx (seedQueue ctx (changedModules ctx changed)) :=
    fun p hp => Finset.mem_union_left _ (List.mem_toFinset.2 hp)
  have hsome : (bfsLoop ctx
      (fuelFor ctx (seedQueue ctx (changedModules ctx changed)))
      (seedQueue ctx (changedModules ctx changed)) ∅ ∅).isSome := by
    apply bfsLoop_isSome ctx
      (pairU ctx (seedQueue ctx (changedModules ctx changed)))
      (expandBound ctx) hUc (expandEntry_length_le ctx) _ _ ∅ ∅ hq0U
    rw [Finset.sdiff_empty]
    unfold fuelFor
    have hmul := Nat.mul_le_mul_right (expandBound ctx + 1)
      (show (pairU ctx (seedQueue ctx (changedModules ctx changed))).card ≤
        (pairU ctx (seedQueue ctx (changedModules ctx changed))).card + 1
        by omega)
    omega
  obtain ⟨r, hr⟩ := Option.isSome_iff_exists.1 hsome
  obtain ⟨imp', vis'⟩ := r
  have hne : ¬((changedModules ctx changed).isEmpty = true) := by
    intro he
    rw [List.isEmpty_iff] at he
    rw [he] at hA
    simp at hA
  have hgv : graphVisited ctx changed = vis' := by
    unfold graphVisited graphResult
    show (if (changedModules ctx changed).isEmpty then
        ((∅, ∅) : Finset String × Finset Pair)
      else (bfsLoop ctx
        (fuelFor ctx (seedQueue ctx (changedModules ctx changed)))
        (seedQueue ctx (changedModules ctx changed)) ∅ ∅).getD
          (∅, ∅)).2 = vis'
    rw [if_neg hne, hr]
    rfl
  rw [hgv]
  have hAvis : ((A, (none : Sym)) : Pair) ∈ vis' :=
    (bfsLoop_vis_mono ctx _ _ _ _ _ _ hr).2 _ hseed
  have hclosed := bfsLoop_closed ctx _ _ _ _ _ _ hr
    (fun m s hms => absurd hms (Finset.not_mem_empty _)) A none hAvis
  have hexpand := hclosed.2 hAtest
  apply hexpand
  show ((B, (none : Sym)) : Pair) ∈
    (revLookup ctx A none).flatMap (expandOne ctx A none)
  rw [List.mem_flatMap]
  have hsyms : ∃ symsA, List.lookup A dB.imports = some symsA ∧
      (none : Sym) ∈ symsA := by
    unfold importsGetD at hBA
    cases hlk : List.lookup A dB.imports with
    | none =>
      rw [hlk] at hBA
      simp at hBA
    | some symsA =>
      rw [hlk] at hBA
      exact ⟨symsA, rfl, hBA⟩
  obtain ⟨symsA, hlk, hnone⟩ := hsyms
  have hBdep : B ∈ revLookup ctx A none :=
    hrev (B, dB) (mem_of_lookup_eq_some hB) (A, symsA)
      (mem_of_lookup_eq_some hlk) none hnone
  refine ⟨B, hBdep, ?_⟩
  have hEO : expandOne ctx A none B =
      (if none ∈ importsGetD dB.imports A
        then [((B, (none : Sym)) : Pair)] else []) := by
    unfold expandOne
    rw [hB]
  rw [hEO, if_pos hBA]
  exact List.mem_singleton.2 rfl

/-- Counterexample to claim C1 as stated: when the changed module A is
itself a test module, it is a sink of the traversal, so a
wholesale importer B is never reached even though every hypothesis of the claim
holds. -/
theorem c1_counterexample :
    (∀ e ∈ exCtxTest.mdata, ∀ q ∈ e.2.imports, ∀ s ∈ q.2,
      e.1 ∈ revLookup exCtxTest q.1 s) ∧
    List.lookup "b" exCtxTest.mdata =
      some ⟨[], [("a", [(none : Sym)])]⟩ ∧
    (none : Sym) ∈ importsGetD [("a", [(none : Sym)])] "a" ∧
    "a" ∈ changedModules exCtxTest [["ta.py"]] ∧
    (("b", (none : Sym)) : Pair) ∉ graphVisited exCtxTest [["ta.py"]] ∧
    "b" ∉ (graphResult exCtxTest [["ta.py"]]).1 := by
  decide

/-- Witness for the amended C1 on a concrete context in which the
changed module has zero exports and is not a test module. -/
theorem c1_witness :
    isTestModule exCtxPlain "a" = false ∧
    (((("a", (none : Sym)) : Pair) ∈
        seedQueue exCtxPlain (changedModules exCtxPlain [["ta.py"]])) ∧
      (("b", (none : Sym)) : Pair) ∈ graphVisited exCtxPlain [["ta.py"]]) :=
  ⟨by decide,
    c1_whole_module_propagation exCtxPlain [["ta.py"]] "a" "b"
      ⟨[], [("a", [(none : Sym)])]⟩
      (by decide) (by decide) (by decide) (by decide) (by decide)⟩

/-! ### C2: symbol-precise propagation -/

/-- Claim C2: if B's recorded import set for A holds only the concrete
symbol S (and not the sentinel), processing a queue entry (A, T) with
T distinct from S never enqueues B; moreover every pair the entry does
enqueue passed the dependant's own import-set re-check for A. -/
theorem c2_symbol_precise_propagation (ctx : RCtx) (A B S T : String)
    (dB : MData)
    (hB : List.lookup B ctx.mdata = some dB)
    (honly : ∀ x ∈ importsGetD dB.imports A, x = some S)
    (hTS : T ≠ S) :
    (∀ sym : Sym, ((B, sym) : Pair) ∉ expandEntry ctx A (some T)) ∧
    (∀ d (sym : Sym), ((d, sym) : Pair) ∈ expandEntry ctx A (some T) →
      ∃ dd, List.lookup d ctx.mdata = some dd ∧
        sym ∈ importsGetD dd.imports A ∧ (sym = some T ∨ sym = none)) := by
  constructor
  · intro sym hmem
    have hmem' : ((B, sym) : Pair) ∈
        ((revLookup ctx A (some T) ++ revLookup ctx A none).dedup).flatMap
          (expandOne ctx A (some T)) := hmem
    obtain ⟨d, hd, hpd⟩ := List.mem_flatMap.1 hmem'
    obtain ⟨h1, hsome, hps, himp⟩ := mem_expandOne hpd
    rcases h1 with rfl
    have hsym := himp dB hB
    have hSS : sym = some S := honly sym hsym
    replace hps : sym = some T ∨ sym = none := hps
    rcases hps with h | h
    · rw [h] at hSS
      exact hTS (Option.some.inj hSS)
    · rw [h] at hSS
      exact Option.noConfusion hSS
  · intro d sym hmem
    have hmem' : ((d, sym) : Pair) ∈
        ((revLookup ctx A (some T) ++ revLookup ctx A none).dedup).flatMap
          (expandOne ctx A (some T)) := hmem
    obtain ⟨d', hd, hpd⟩ := List.mem_flatMap.1 hmem'
    obtain ⟨h1, hsome, hps, himp⟩ := mem_expandOne hpd
    rcases h1 with rfl
    obtain ⟨dd, hdd⟩ := Option.isSome_iff_exists.1 hsome
    exact ⟨dd, hdd, himp dd hdd, hps⟩

/-- Witness for C2 on a concrete context where `b` imports only the
symbol `s` of `a` and the seeded symbol is `t`. -/
theorem c2_witness :
    (∀ sym : Sym, (("b", sym) : Pair) ∉ expandEntry exCtxSym "a" (some "t")) ∧
    (∀ d (sym : Sym), ((d, sym) : Pair) ∈ expandEntry exCtxSym "a" (some "t") →
      ∃ dd, List.lookup d exCtxSym.mdata = some dd ∧
        sym ∈ importsGetD dd.imports "a" ∧ (sym = some "t" ∨ sym = none)) :=
  c2_symbol_precise_propagation exCtxSym "a" "b" "s" "t"
    ⟨[], [("a", [(some "s" : Sym)])]⟩
    (by decide) (by decide) (by decide)

/-! ### C8 and C10: the fallback matcher -/

theorem fallbackPick_eq (ctx : RCtx) (changed : List PyPath) (p : PyPath)
    (M : String) (hbp : List.lookup p ctx.idx.byPath = some M)
    (hM : M ≠ "") :
    fallbackPick ctx changed p =
      if maxScoreList (changed.map fun c =>
          tokenScore (pathTokens ctx.cfg p) (pathTokens ctx.cfg c)) <
          effThreshold ctx.cfg then none
      else if ¬ changed.any (fun c =>
          decide ((dirTokens ctx.cfg p ∩ dirTokens ctx.cfg c).Nonempty))
        then none
      else some M := by
  unfold fallbackPick
  rw [hbp]
  rw [if_neg (show ¬((some M : Option String).isNone = true) by simp)]
  show (if maxScoreList (changed.map fun c =>
      tokenScore (pathTokens ctx.cfg p) (pathTokens ctx.cfg c)) <
      effThreshold ctx.cfg then none
    else if ¬ changed.any (fun c =>
        decide ((dirTokens ctx.cfg p ∩ dirTokens ctx.cfg c).Nonempty))
      then none
    else if M ≠ "" then some M else none) = _
  split_ifs with h1 h2
  · rfl
  · rfl
  · rfl

theorem fallbackPick_none_of_low {ctx : RCtx} {changed : List PyPath}
    {p : PyPath}
    (hlow : maxScoreList (changed.map fun c =>
      tokenScore (pathTokens ctx.cfg p) (pathTokens ctx.cfg c)) <
      effThreshold ctx.cfg) :
    fallbackPick ctx changed p = none := by
  unfold fallbackPick
  cases hbp : List.lookup p ctx.idx.byPath with
  | none =>
    rw [if_pos (show ((none : Option String).isNone = true) by simp)]
  | some M =>
    rw [if_neg (show ¬((some M : Option String).isNone = true) by simp)]
    show (if maxScoreList (changed.map fun c =>
        tokenScore (pathTokens ctx.cfg p) (pathTokens ctx.cfg c)) <
        effThreshold ctx.cfg then none else _) = none
    rw [if_pos hlow]

/-- Claim C8 as amended: a candidate test path with a truthy indexed
module name is fallback-selected exactly when (a) the maximum over the
changed files of the sum of character lengths of shared path tokens
reaches the effective threshold (the configured threshold, raised to 1
when non-positive), and (b) its directory-token set intersects that of
at least one changed file. -/
theorem c8_fallback_selection (ctx : RCtx) (changed : List PyPath)
    (p : PyPath) (M : String)
    (hbp : List.lookup p ctx.idx.byPath = some M)
    (hM : M ≠ "") :
    fallbackSelects ctx changed p = true ↔
      (effThreshold ctx.cfg ≤
        maxScoreList (changed.map fun c =>
          tokenScore (pathTokens ctx.cfg p) (pathTokens ctx.cfg c)) ∧
      ∃ c ∈ changed,
        (dirTokens ctx.cfg p ∩ dirTokens ctx.cfg c).Nonempty) := by
  unfold fallbackSelects
  rw [fallbackPick_eq ctx changed p M hbp hM]
  split_ifs with h1 h2
  · constructor
    · intro hfalse
      simp at hfalse
    · rintro ⟨ha, _⟩
      exact absurd ha (by omega)
  · constructor
    · intro _
      refine ⟨by omega, ?_⟩
      obtain ⟨c, hc, hdec⟩ := List.any_eq_true.1 h2
      exact ⟨c, hc, of_decide_eq_true hdec⟩
    · intro _
      rfl
  · constructor
    · intro hfalse
      simp at hfalse
    · rintro ⟨_, c, hc, hne⟩
      exact absurd (List.any_eq_true.2 ⟨c, hc, decide_eq_true hne⟩) h2

/-- Counterexample to claim C8 as stated: with a configured threshold
of 0 and a minimum token length of 0, a test file sharing only the
empty token with the changed file meets both stated conditions under
the configured threshold, yet is not fallback-selected, because the
code raises a non-positive threshold to 1. -/
theorem c8_counterexample :
    exCtxFb.cfg.tokens.fallbackScore ≤
      maxScoreList (exFbChanged.map fun c =>
        tokenScore
          (pathTokens exCtxFb.cfg ["r", "tests", ".y", "test_bar.py"])
          (pathTokens exCtxFb.cfg c)) ∧
    (∃ c ∈ exFbChanged,
      (dirTokens exCtxFb.cfg ["r", "tests", ".y", "test_bar.py"] ∩
        dirTokens exCtxFb.cfg c).Nonempty) ∧
    ["r", "tests", ".y", "test_bar.py"] ∈ testPaths exCtxFb ∧
    List.lookup (["r", "tests", ".y", "test_bar.py"] : PyPath)
      exCtxFb.idx.byPath = some "tb" ∧
    fallbackSelects exCtxFb exFbChanged
      ["r", "tests", ".y", "test_bar.py"] = false := by
  decide

/-- Witness for the amended C8 on a concrete context where a genuine
lexical match selects the test file. -/
theorem c8_witness :
    List.lookup (["tests", "billing", "test_tax.py"] : PyPath)
        exCtxFb2.idx.byPath = some "tests.billing.test_tax" ∧
    (fallbackSelects exCtxFb2 [["src", "billing", "tax.py"]]
        ["tests", "billing", "test_tax.py"] = true ↔
      (effThreshold exCtxFb2.cfg ≤
        maxScoreList ([["src", "billing", "tax.py"]].map fun c =>
          tokenScore
            (pathTokens exCtxFb2.cfg ["tests", "billing", "test_tax.py"])
            (pathTokens exCtxFb2.cfg c)) ∧
      ∃ c ∈ [["src", "billing", "tax.py"]],
        (dirTokens exCtxFb2.cfg ["tests", "billing", "test_tax.py"] ∩
          dirTokens exCtxFb2.cfg c).Nonempty)) :=
  ⟨by decide,
    c8_fallback_selection exCtxFb2 [["src", "billing", "tax.py"]]
      ["tests", "billing", "test_tax.py"] "tests.billing.test_tax"
      (by decide) (by decide)⟩

theorem foldl_max_le {b : Int} :
    ∀ (l : List Int) (acc : Int), acc ≤ b → (∀ x ∈ l, x ≤ b) →
      l.foldl max acc ≤ b := by
  intro l
  induction l with
  | nil =>
    intro acc hacc _
    exact hacc
  | cons x xs ih =>
    intro acc hacc hall
    rw [List.foldl_cons]
    exact ih (max acc x)
      (max_le hacc (hall x (List.mem_cons_self _ _)))
      (fun y hy => hall y (List.mem_cons_of_mem _ hy))

theorem maxScoreList_le {b : Int} (hb : 0 ≤ b) {l : List Int}
    (h : ∀ x ∈ l, x ≤ b) : maxScoreList l ≤ b := by
  cases l with
  | nil => exact hb
  | cons x xs =>
    unfold maxScoreList
    exact foldl_max_le xs x (h x (List.mem_cons_self _ _))
      (fun y hy => h y (List.mem_cons_of_mem _ hy))

/-- Claim C10: with a non-positive configured threshold the resolver
behaves as if the threshold were 1 — the effective threshold is 1,
every fallback-selected test path has a maximum token-overlap score of
at least 1, and a test path sharing no token with any changed file is
never fallback-selected. -/
theorem c10_nonpositive_threshold (ctx : RCtx)
    (h : ctx.cfg.tokens.fallbackScore ≤ 0) :
    effThreshold ctx.cfg = 1 ∧
    (∀ changed p, fallbackSelects ctx changed p = true →
      1 ≤ maxScoreList (changed.map fun c =>
        tokenScore (pathTokens ctx.cfg p) (pathTokens ctx.cfg c))) ∧
    (∀ changed p, (∀ c ∈ changed,
        pathTokens ctx.cfg p ∩ pathTokens ctx.cfg c = ∅) →
      fallbackSelects ctx changed p = false) := by
  have heff : effThreshold ctx.cfg = 1 := by
    unfold effThreshold
    rw [if_pos h]
  refine ⟨heff, fun changed p hsel => ?_, fun changed p hc => ?_⟩
  · by_contra hlt
    rw [not_le] at hlt
    have hlow : maxScoreList (changed.map fun c =>
        tokenScore (pathTokens ctx.cfg p) (pathTokens ctx.cfg c)) <
        effThreshold ctx.cfg := by omega
    unfold fallbackSelects at hsel
    rw [fallbackPick_none_of_low hlow] at hsel
    simp at hsel
  · have hzero : ∀ x ∈ (changed.map fun c =>
        tokenScore (pathTokens ctx.cfg p) (pathTokens ctx.cfg c)), x ≤ 0 := by
      intro x hx
      obtain ⟨c, hcm, rfl⟩ := List.mem_map.1 hx
      unfold tokenScore
      rw [hc c hcm, Finset.sum_empty]
    have hlow : maxScoreList (changed.map fun c =>
        tokenScore (pathTokens ctx.cfg p) (pathTokens ctx.cfg c)) <
        effThreshold ctx.cfg := by
      have := maxScoreList_le (by omega) hzero
      omega
    unfold fallbackSelects
    rw [fallbackPick_none_of_low hlow]
    rfl

/-- Witness for C10 on the concrete zero-threshold context. -/
theorem c10_witness :
    exCtxFb.cfg.tokens.fallbackScore ≤ 0 ∧
    effThreshold exCtxFb.cfg = 1 ∧
    fallbackSelects exCtxFb [["r", "other", "zzz.py"]]
      ["r", "tests", ".y", "test_bar.py"] = false :=
  ⟨by decide,
    (c10_nonpositive_threshold exCtxFb (by decide)).1,
    (c10_nonpositive_threshold exCtxFb (by decide)).2.2
      [["r", "other", "zzz.py"]] ["r", "tests", ".y", "test_bar.py"]
      (by decide)⟩

end Testsight
